import Mathlib

/-!
Verification development for the traffic simulation repository
(TrafficSimulation3D).  The definitions below are a shallow embedding of
`traffic_simulation/agent.py` and `traffic_simulation/model.py`:

* the city grid holds at most one fixed agent per cell (Road, Traffic_Light,
  Obstacle, Destination), exactly as built by `CityModel.__init__`;
* car occupancy is passed as a boolean predicate on coordinates (the
  `any(isinstance(agent, Car) ...)` queries);
* `Car.find_path_to_destination` is embedded as a fuel-indexed A* loop whose
  priority queue pops the lexicographically least `(f_score, counter)` pair,
  which is exactly what `heapq` does on the pushed tuples since counters are
  unique;
* the stochastic agent steps take explicit oracle records in place of
  `self.model.random` calls.
-/

namespace Traffic

/-- Cardinal flow directions of roads, `"Up" | "Down" | "Left" | "Right"`. -/
inductive Direction : Type where
  | up
  | down
  | left
  | right
deriving DecidableEq, Repr

/-- Grid coordinates, `cell.coordinate` in mesa. -/
abbrev Coord : Type := Int × Int

/-- Offsets of `direction_offsets` in `agent.py` (dict order Up, Down, Left, Right). -/
def Direction.offset : Direction → Int × Int
  | .up => (0, 1)
  | .down => (0, -1)
  | .left => (-1, 0)
  | .right => (1, 0)

/-- Opposite direction, the `opposite_dirs` dict. -/
def Direction.opposite : Direction → Direction
  | .up => .down
  | .down => .up
  | .left => .right
  | .right => .left

/-- Iteration order of `direction_offsets.items()`. -/
def dirOrder : List Direction := [.up, .down, .left, .right]

/-- Target coordinate of a move: `(x + dx, y + dy)`. -/
def stepCell (c : Coord) (d : Direction) : Coord :=
  (c.1 + d.offset.1, c.2 + d.offset.2)

/-- Fixed agent present at a cell.  `CityModel.__init__` places at most one of
Road / Traffic_Light / Obstacle / Destination per cell.  A traffic light's
green/red state is dynamic and therefore kept outside the static grid. -/
inductive StaticCell : Type where
  | empty
  | road (d : Direction)
  | light (d : Direction)
  | obstacle
  | dest
deriving DecidableEq, Repr

/-- Static city map: dimensions and the fixed agent of every cell. -/
structure CityGrid : Type where
  width : Nat
  height : Nat
  static : Coord → StaticCell

/-- Bounds test `0 <= x < width and 0 <= y < height`. -/
def inBounds (g : CityGrid) (c : Coord) : Bool :=
  decide (0 ≤ c.1 ∧ c.1 < (g.width : Int) ∧ 0 ≤ c.2 ∧ c.2 < (g.height : Int))

/-- Embeds `Car.get_road_at`: the direction of the Road or Traffic_Light agent
at the cell, if any. -/
def get_road_at (g : CityGrid) (c : Coord) : Option Direction :=
  match g.static c with
  | .road d => some d
  | .light d => some d
  | _ => none

/-- Presence of an `Obstacle` agent at the cell. -/
def isObstacleB (g : CityGrid) (c : Coord) : Bool :=
  match g.static c with
  | .obstacle => true
  | _ => false

/-- Presence of a `Destination` agent at the cell. -/
def isDestB (g : CityGrid) (c : Coord) : Bool :=
  match g.static c with
  | .dest => true
  | _ => false

/-- Presence of a `Traffic_Light` agent at the cell. -/
def isLightB (g : CityGrid) (c : Coord) : Bool :=
  match g.static c with
  | .light _ => true
  | _ => false

/-- The `has_valid_path` test: the cell hosts a Road, Destination or
Traffic_Light agent. -/
def hasValidPathB (g : CityGrid) (c : Coord) : Bool :=
  match g.static c with
  | .road _ => true
  | .light _ => true
  | .dest => true
  | _ => false

/-- Lines 134-140 of `agent.py`: from a Destination cell, a street neighbor is
accepted only when its flow direction matches the movement direction. -/
def destRoadAcc (g : CityGrid) (acc : List Coord) (n : Coord)
    (d : Direction) : List Coord :=
  match get_road_at g n with
  | some rd => if rd = d then acc ++ [n] else acc
  | none => acc

/-- One iteration of the destination-cell branch of `get_valid_neighbors`
(lines 120-145 of `agent.py`): from a Destination cell one may enter an
adjacent street only along its flow direction, or enter another Destination. -/
def destNeighborStep (g : CityGrid) (occ : Coord → Bool) (c : Coord)
    (acc : List Coord) (d : Direction) : List Coord :=
  if inBounds g (stepCell c d) then
    if occ (stepCell c d) || isObstacleB g (stepCell c d) then acc
    else if isDestB g (stepCell c d) then
      destRoadAcc g acc (stepCell c d) d ++ [stepCell c d]
    else destRoadAcc g acc (stepCell c d) d
  else acc

/-- Traffic-light branch of `get_valid_neighbors` (lines 147-171): only the
cell in the light's flow direction is considered. -/
def lightNeighbors (g : CityGrid) (occ : Coord → Bool) (c : Coord)
    (currentRoad : Option Direction) : List Coord :=
  match currentRoad with
  | none => []
  | some d =>
    if inBounds g (stepCell c d) then
      if occ (stepCell c d) || isObstacleB g (stepCell c d) then []
      else if hasValidPathB g (stepCell c d) then [stepCell c d] else []
    else []

/-- Forward move of the plain-road branch (lines 179-196). -/
def roadForward (g : CityGrid) (occ : Coord → Bool) (c : Coord)
    (d : Direction) : List Coord :=
  if inBounds g (stepCell c d) then
    if isObstacleB g (stepCell c d) || occ (stepCell c d) then []
    else if hasValidPathB g (stepCell c d) then [stepCell c d] else []
  else []

/-- Lines 227-229: a Destination neighbor not yet collected is appended. -/
def turnAcc1 (g : CityGrid) (acc : List Coord) (n : Coord) : List Coord :=
  if isDestB g n ∧ n ∉ acc then acc ++ [n] else acc

/-- The `if next_cell not in neighbors: neighbors.append(next_cell)` step. -/
def turnPush (acc1 : List Coord) (n : Coord) : List Coord :=
  if n ∉ acc1 then acc1 ++ [n] else acc1

/-- Lines 224-242: after the Destination check, a street neighbor is pushed
when it is a lane change (same flow direction) or a turn not against the
flow. -/
def turnRoadCase (g : CityGrid) (acc : List Coord) (n : Coord)
    (d dn : Direction) (ro : Option Direction) : List Coord :=
  match ro with
  | some rd =>
    if rd = d then turnPush (turnAcc1 g acc n) n
    else if rd ≠ dn.opposite then turnPush (turnAcc1 g acc n) n
    else turnAcc1 g acc n
  | none => turnAcc1 g acc n

/-- One iteration of the turning loop of the plain-road branch
(lines 207-242): destinations are accepted in any direction, lane changes
require equal flow direction, and turns require not driving against the flow. -/
def roadTurnStep (g : CityGrid) (occ : Coord → Bool) (c : Coord) (d : Direction)
    (acc : List Coord) (dn : Direction) : List Coord :=
  if dn = d then acc
  else if inBounds g (stepCell c dn) then
    if isObstacleB g (stepCell c dn) || occ (stepCell c dn) then acc
    else turnRoadCase g acc (stepCell c dn) d dn (get_road_at g (stepCell c dn))
  else acc

/-- Embeds `Car.get_valid_neighbors(cell, current_road)`.  `occ` answers the
`any(isinstance(agent, Car) for agent in next_cell.agents if agent != self)`
queries, i.e. presence of another car. -/
def get_valid_neighbors (g : CityGrid) (occ : Coord → Bool) (c : Coord)
    (currentRoad : Option Direction) : List Coord :=
  if isDestB g c then dirOrder.foldl (destNeighborStep g occ c) []
  else if isLightB g c then lightNeighbors g occ c currentRoad
  else
    match currentRoad with
    | some d => dirOrder.foldl (roadTurnStep g occ c d) (roadForward g occ c d)
    | none => []

/-- Embeds `Car.heuristic`: Manhattan distance between two cells. -/
def heuristic (a b : Coord) : Nat :=
  (a.1 - b.1).natAbs + (a.2 - b.2).natAbs

/-- Successor function used by the A* search of `find_path_to_destination`:
`self.get_valid_neighbors(current, self.get_road_at(current))`. -/
def gridSucc (g : CityGrid) (occ : Coord → Bool) : Coord → List Coord :=
  fun c => get_valid_neighbors g occ c (get_road_at g c)

/-! ### The A* search of `Car.find_path_to_destination`

The Python code keeps a `heapq` of tuples `(f_score, counter, cell, path)`.
Since every pushed counter is distinct, `heapq.heappop` always returns the
entry with the lexicographically least `(f_score, counter)`; the search is
embedded with an explicit list and a pop-minimum function realizing exactly
that order.  The `while open_set` loop is given explicit fuel; the fuel is
proved sufficient below (claim C4). -/

/-- Queue entry `(f_score, counter, cell, path)`. -/
structure Entry (α : Type) : Type where
  f : Nat
  ctr : Nat
  cell : α
  path : List α
deriving DecidableEq, Repr

/-- Heap order on entries: lexicographic on `(f_score, counter)`. -/
def entryLe {α : Type} (a b : Entry α) : Prop :=
  a.f < b.f ∨ (a.f = b.f ∧ a.ctr ≤ b.ctr)

instance {α : Type} (a b : Entry α) : Decidable (entryLe a b) := by
  unfold entryLe; infer_instance

/-- Pop the least entry of the list in `entryLe` order, returning it together
with the remaining entries (the `heapq.heappop` of `agent.py`). -/
def popMin {α : Type} : List (Entry α) → Option (Entry α × List (Entry α))
  | [] => none
  | e :: es =>
    match popMin es with
    | none => some (e, [])
    | some (m, rest) => if entryLe e m then some (e, es) else some (m, e :: rest)

/-- State of the A* loop: the open list, the `g_score` map, the closed set and
the monotone insertion counter. -/
structure AState (α : Type) [DecidableEq α] : Type where
  openL : List (Entry α)
  g : α → Option Nat
  closed : Finset α
  ctr : Nat

/-- The `tentative_g = g_score[current] + 1` of line 68.  The lookup is total
in the source because every expanded cell has a recorded g-score; `getD 0`
mirrors that. -/
def tentative {α : Type} [DecidableEq α] (st : AState α) (c : α) : Nat :=
  (st.g c).getD 0 + 1

/-- The `neighbor not in g_score or tentative_g < g_score[neighbor]` test of
line 70. -/
def improveCheck {α : Type} [DecidableEq α] (st : AState α) (c n : α) : Bool :=
  match st.g n with
  | none => true
  | some gn => decide (tentative st c < gn)

/-- The body of lines 71-76: record the improved g-score, bump the counter and
push the extended entry. -/
def pushState {α : Type} [DecidableEq α] (hf : α → Nat) (e : Entry α)
    (st : AState α) (n : α) : AState α :=
  { openL := st.openL ++
      [⟨tentative st e.cell + hf n, st.ctr + 1, n, e.path ++ [n]⟩],
    g := fun x => if x = n then some (tentative st e.cell) else st.g x,
    closed := st.closed,
    ctr := st.ctr + 1 }

/-- Relaxation of a single neighbor (lines 64-76 of `agent.py`): skip closed
neighbors, and push an improved entry when the tentative g-score beats the
recorded one. -/
def relaxOne {α : Type} [DecidableEq α] (hf : α → Nat) (e : Entry α)
    (st : AState α) (n : α) : AState α :=
  if n ∈ st.closed then st
  else if improveCheck st e.cell n then pushState hf e st n
  else st

/-- Expansion of a popped cell: relax all its valid neighbors in order. -/
def expand {α : Type} [DecidableEq α] (succ : α → List α) (hf : α → Nat)
    (e : Entry α) (st : AState α) : AState α :=
  (succ e.cell).foldl (relaxOne hf e) st

/-- The `while open_set` loop of `find_path_to_destination`.  Returns `none`
only on fuel exhaustion (proved impossible for the fuel used below),
`some []` when the open list empties without reaching the goal, and
`some path[1:]` when the goal is popped.  The source adds the popped cell to
the closed set just before the goal test; since that branch returns at once,
inserting only on the expanding branch yields the identical result. -/
def astarLoop {α : Type} [DecidableEq α] (succ : α → List α) (hf : α → Nat)
    (goal : α) : Nat → AState α → Option (List α)
  | 0, _ => none
  | fuel + 1, st =>
    match popMin st.openL with
    | none => some []
    | some (e, rest) =>
      if e.cell ∈ st.closed then
        astarLoop succ hf goal fuel { st with openL := rest }
      else if e.cell = goal then some e.path.tail
      else
        astarLoop succ hf goal fuel
          (expand succ hf e
            { st with openL := rest, closed := insert e.cell st.closed })

/-- Initial A* state: `open_set = [(0, 0, start, [start])]`, `g_score =
{start: 0}`, empty closed set, counter 0. -/
def astarInit {α : Type} [DecidableEq α] (start : α) : AState α :=
  { openL := [⟨0, 0, start, [start]⟩],
    g := fun x => if x = start then some 0 else none,
    closed := ∅,
    ctr := 0 }

/-- The A* search with the `if self.cell == self.destination: return []`
pre-check of line 37. -/
def astar {α : Type} [DecidableEq α] (succ : α → List α) (hf : α → Nat)
    (start goal : α) (fuel : Nat) : Option (List α) :=
  if start = goal then some []
  else astarLoop succ hf goal fuel (astarInit start)

/-- Fuel that is proved sufficient for the grid search: linear in the grid
area (claim C4).  Each loop iteration pops one entry and each expansion closes
a fresh in-bounds cell while pushing at most five entries. -/
def stdFuel (g : CityGrid) : Nat :=
  2 + 6 * (g.width * g.height + 1)

/-- Embeds `Car.find_path_to_destination` for a car at `s` with destination
`t` on grid `g`, where `occ` gives the cells occupied by other cars.  The
Python function always returns a list; the fuel default never fires. -/
def find_path_to_destination (g : CityGrid) (occ : Coord → Bool)
    (s t : Coord) : List Coord :=
  (astar (gridSucc g occ) (fun c => heuristic c t) s t (stdFuel g)).getD []

/-! ### Specification-level definitions -/

section GraphSpecDefs

variable {α : Type} (succ : α → List α)

/-- Walks: `p` lists the cells visited after `s`, each a valid neighbor of
its predecessor, and the walk ends at `t`. -/
def WalkTo (s : α) (p : List α) (t : α) : Prop :=
  List.Chain (fun a b => b ∈ succ a) s p ∧ p.getLastD s = t

/-- Reachability in the legality graph. -/
def Reach (s t : α) : Prop :=
  ∃ p, WalkTo succ s p t

/-- The property of being the optimal (minimum) distance from `s` to `t`:
`n` is attained by some walk and no walk is shorter. -/
def IsMinWalkLen (s t : α) (n : Nat) : Prop :=
  (∃ p, WalkTo succ s p t ∧ p.length = n) ∧
    ∀ p, WalkTo succ s p t → n ≤ p.length

end GraphSpecDefs

section AstarInvariantDefs

variable {α : Type} [DecidableEq α]
variable (succ : α → List α) (hf : α → Nat) (start : α)

/-- Entries carry their own path: it starts at the start cell, is a valid
walk ending at the entry's cell, and the stored f-score is the path's edge
count plus the heuristic of the cell. -/
def ValidEntry (e : Entry α) : Prop :=
  ∃ p, e.path = start :: p ∧ WalkTo succ start p e.cell ∧
    e.f = p.length + hf e.cell

/-- Core loop invariant of `find_path_to_destination`: everything except the
full-relaxation property of closed cells (which is temporarily broken for the
cell being expanded while its neighbor loop runs). -/
structure InvCore (st : AState α) : Prop where
  gstart : st.g start = some 0
  entries : ∀ e ∈ st.openL, ValidEntry succ hf start e
  grealized : ∀ c k, st.g c = some k → ∃ p, WalkTo succ start p c ∧ p.length = k
  gle : ∀ e ∈ st.openL, ∃ k, st.g e.cell = some k ∧ k + 1 ≤ e.path.length
  closedOpt : ∀ c ∈ st.closed, ∃ k, st.g c = some k ∧ IsMinWalkLen succ start c k
  openCover : ∀ c, c ∉ st.closed → ∀ k, st.g c = some k →
    ∃ e ∈ st.openL, e.cell = c ∧ e.path.length = k + 1

/-- Full loop invariant: the core plus relaxation of every closed cell. -/
structure Inv (st : AState α) extends InvCore succ hf start st : Prop where
  relaxed : ∀ x ∈ st.closed, ∀ y ∈ succ x, y ∈ st.closed ∨
    ∃ ky kx, st.g y = some ky ∧ st.g x = some kx ∧ ky ≤ kx + 1

/-- Relaxation property restricted to closed cells other than the cell
currently being expanded. -/
def RelaxedExcept (c0 : α) (st : AState α) : Prop :=
  ∀ x ∈ st.closed, x ≠ c0 → ∀ y ∈ succ x, y ∈ st.closed ∨
    ∃ ky kx, st.g y = some ky ∧ st.g x = some kx ∧ ky ≤ kx + 1

/-- Bounded-universe invariant used for termination: every open entry's cell
and every closed cell lies in the finite universe `univC`. -/
def TInv (univC : Finset α) (st : AState α) : Prop :=
  (∀ e ∈ st.openL, e.cell ∈ univC) ∧ st.closed ⊆ univC

end AstarInvariantDefs

/-- The finite set of in-bounds grid cells. -/
def gridIcc (g : CityGrid) : Finset Coord :=
  Finset.Icc ((0 : Int), (0 : Int)) ((g.width : Int) - 1, (g.height : Int) - 1)

/-! ### Concrete grids used as witnesses -/

/-- Five-cell straight corridor of rightward roads ending at a Destination. -/
def corridorGrid : CityGrid :=
  ⟨5, 1, fun c =>
    if c = (4, 0) then StaticCell.dest
    else if c.2 = 0 ∧ 0 ≤ c.1 ∧ c.1 < 4 then StaticCell.road Direction.right
    else StaticCell.empty⟩

/-- Grid with a rightward Traffic_Light at (1,1) and a Destination directly
above it at (1,2). -/
def lightGrid : CityGrid :=
  ⟨3, 3, fun c =>
    if c = (1, 1) then StaticCell.light Direction.right
    else if c = (1, 2) then StaticCell.dest
    else StaticCell.empty⟩

/-- Grid with a single rightward road cell at the origin and no road
continuation: the destination (2,0) is unreachable. -/
def deadEndGrid : CityGrid :=
  ⟨3, 1, fun c =>
    if c = (0, 0) then StaticCell.road Direction.right
    else if c = (2, 0) then StaticCell.dest
    else StaticCell.empty⟩

/-- Occupancy map with no cars. -/
def noCar : Coord → Bool := fun _ => false

/-- Computable decision procedure for walk chains (the library instance for
`List.Chain` is tactic-built and does not reduce in the kernel). -/
def walkChainDec {α : Type} [DecidableEq α] (succ : α → List α) :
    ∀ (s : α) (p : List α), Decidable (List.Chain (fun a b => b ∈ succ a) s p)
  | _, [] => isTrue List.Chain.nil
  | s, y :: p =>
    haveI := walkChainDec succ y p
    decidable_of_iff (y ∈ succ s ∧ List.Chain (fun a b => b ∈ succ a) y p)
      (@List.chain_cons α (fun a b => b ∈ succ a) s y p).symm

instance walkToDecidable {α : Type} [DecidableEq α] (succ : α → List α)
    (s : α) (p : List α) (t : α) : Decidable (WalkTo succ s p t) :=
  haveI := walkChainDec succ s p
  inferInstanceAs
    (Decidable (List.Chain (fun a b => b ∈ succ a) s p ∧ p.getLastD s = t))

/-! ### Car agents

`Car.step` and `drunkDriver.step` are embedded as pure functions over an
explicit car state.  Every `self.model.random` call is replaced by a field of
an explicit oracle record, and the queries `cell.agents` are answered by the
static grid (`CityGrid`), the dynamic light states (`lights : Coord → Bool`
with `true` = green) and the other cars' occupancy (`occ : Coord → Bool`). -/

/-- The two agent classes with step behavior: `Car` and `drunkDriver`. -/
inductive CarKind : Type where
  | normal
  | drunk
deriving DecidableEq, Repr

/-- Mutable state of a `Car` / `drunkDriver` agent.  `active` records
membership in `model.agents` (cleared by `self.remove()`); `zigzagLeft` is
`zigzag_state == "left"`. -/
structure CarState : Type where
  pos : Coord
  dest : Coord
  dir : Direction
  path : List Coord
  kind : CarKind
  crashed : Bool
  crashRecoverySteps : Nat
  randomStepsRemaining : Nat
  zigzagLeft : Bool
  reachedDestination : Bool
  waitingAtLight : Bool
  active : Bool
deriving DecidableEq, Repr

/-- Outcomes of the `self.model.random` calls made during one agent step:
each `random() < p` comparison becomes a boolean field, `random.choice`
becomes an index, and `randint(3, 5)` becomes `3 + randStepsIdx % 3`. -/
structure Oracle : Type where
  crashRoll : Bool
  forgetRoll : Bool
  wrongWayRoll : Bool
  randomMoveRoll : Bool
  ignoreLightRoll : Bool
  zigzagRoll : Bool
  choiceIdx : Nat
  randStepsIdx : Nat
deriving DecidableEq, Repr

/-- Embeds `Car.can_move_forward` (lines 246-269): blocked by a red light on
the current cell or by any car in the next path cell (this check does not
exclude `self`, hence the extra `next = self.pos` disjunct), with the
`waiting_at_light` flag updated as in the source. -/
def can_move_forward (g : CityGrid) (lights occ : Coord → Bool)
    (self : CarState) : Bool × CarState :=
  match self.path with
  | [] => (false, self)
  | next :: _ =>
    if isLightB g self.pos && !(lights self.pos) then
      (false, { self with waitingAtLight := true })
    else if occ next || decide (next = self.pos) then
      (false, { self with waitingAtLight := false })
    else (true, { self with waitingAtLight := false })

/-- Direction update after a realized move (lines 296-306). -/
def dirOfMove (oldc newc : Coord) (d0 : Direction) : Direction :=
  if oldc.1 < newc.1 then Direction.right
  else if newc.1 < oldc.1 then Direction.left
  else if oldc.2 < newc.2 then Direction.up
  else if newc.2 < oldc.2 then Direction.down
  else d0

/-- Embeds `Car.continue_in_road_direction` (lines 316-365): advance one cell
along the current road's flow when the target is in bounds and free and the
current light is not red. -/
def continue_in_road_direction (g : CityGrid) (lights occ : Coord → Bool)
    (self : CarState) : CarState :=
  match get_road_at g self.pos with
  | none => self
  | some d =>
    if inBounds g (stepCell self.pos d) then
      if isObstacleB g (stepCell self.pos d) || occ (stepCell self.pos d) then
        self
      else if isLightB g self.pos && !(lights self.pos) then
        { self with waitingAtLight := true }
      else
        { self with
          waitingAtLight := false,
          pos := stepCell self.pos d,
          dir := d }
    else self

/-- The movement body of `move_along_path` (lines 280-308), entered when the
path is nonempty and `can_move_forward` returned `True`: pop the next cell,
re-check for another car there (rolling the crash probability when present —
dead code for rule-following cars since `can_move_forward` already rejected
occupied cells), and otherwise commit the move. -/
def movePath3 (g : CityGrid) (occ : Coord → Bool) (o : Oracle)
    (self : CarState) : CarState :=
  match self.path with
  | [] => self
  | next :: rest =>
    if occ next && o.crashRoll then
      { self with path := rest, crashed := true, crashRecoverySteps := 10 }
    else
      { self with
        path := rest,
        pos := next,
        dir := dirOfMove self.pos next self.dir }

/-- The branch structure of `move_along_path` after the path has been
recomputed (lines 279-314). -/
def movePath2 (g : CityGrid) (lights occ : Coord → Bool) (o : Oracle)
    (self : CarState) : CarState :=
  if (can_move_forward g lights occ self).1 then
    movePath3 g occ o (can_move_forward g lights occ self).2
  else if (can_move_forward g lights occ self).2.path = [] then
    continue_in_road_direction g lights occ (can_move_forward g lights occ self).2
  else (can_move_forward g lights occ self).2

/-- Embeds `Car.move_along_path` (lines 271-314): recompute the path when
empty, then move along it or fall back to `continue_in_road_direction`. -/
def move_along_path (g : CityGrid) (lights occ : Coord → Bool) (o : Oracle)
    (self : CarState) : CarState :=
  movePath2 g lights occ o
    (if self.path = [] then
      { self with path := find_path_to_destination g occ self.pos self.dest }
    else self)

/-- Embeds `Car.step` (lines 367-386): crash recovery countdown, arrival
handling (`reached_destination` plus `remove`), else movement. -/
def carStepNormal (g : CityGrid) (lights occ : Coord → Bool) (o : Oracle)
    (self : CarState) : CarState :=
  if self.crashRecoverySteps = 0 then
    if self.pos = self.dest then
      { self with reachedDestination := true, active := false }
    else move_along_path g lights occ o self
  else if self.crashRecoverySteps = 1 then
    { self with crashRecoverySteps := 0, crashed := false }
  else { self with crashRecoverySteps := self.crashRecoverySteps - 1 }

/-- Embeds `drunkDriver.get_random_neighbor` (lines 416-439): all in-bounds
neighbors in dict order regardless of roads and occupants, one picked by the
`random.choice` oracle index. -/
def get_random_neighbor (g : CityGrid) (o : Oracle) (self : CarState) :
    Option (Coord × Direction) :=
  match dirOrder.filterMap (fun d =>
    if inBounds g (stepCell self.pos d) then some (stepCell self.pos d, d)
    else none) with
  | [] => none
  | p :: ps => some ((p :: ps).getD (o.choiceIdx % (p :: ps).length) p)

/-- Embeds `drunkDriver.can_move_forward_drunk` (lines 441-467): a red light
may be ignored with the configured probability; otherwise like the base
check (but excluding `self` in the car query, as the source does here). -/
def can_move_forward_drunk (g : CityGrid) (lights occ : Coord → Bool)
    (o : Oracle) (self : CarState) : Bool × CarState :=
  match self.path with
  | [] => (false, self)
  | next :: _ =>
    if isLightB g self.pos && !(lights self.pos) && !o.ignoreLightRoll then
      (false, { self with waitingAtLight := true })
    else if occ next then (false, { self with waitingAtLight := false })
    else (true, { self with waitingAtLight := false })

/-- Embeds `drunkDriver.get_wrong_way_neighbor` (lines 469-487). -/
def get_wrong_way_neighbor (g : CityGrid) (self : CarState) :
    Option (Coord × Direction) :=
  match get_road_at g self.pos with
  | none => none
  | some rd =>
    if inBounds g (stepCell self.pos rd.opposite) then
      some (stepCell self.pos rd.opposite, rd.opposite)
    else none

/-- Perpendicular zigzag target of `apply_zigzag` (lines 507-513). -/
def zigzagTarget (rd : Direction) (left : Bool) (intended : Coord) : Coord :=
  match rd with
  | Direction.up => if left then (intended.1 - 1, intended.2) else (intended.1 + 1, intended.2)
  | Direction.down => if left then (intended.1 - 1, intended.2) else (intended.1 + 1, intended.2)
  | Direction.left => if left then (intended.1, intended.2 + 1) else (intended.1, intended.2 - 1)
  | Direction.right => if left then (intended.1, intended.2 + 1) else (intended.1, intended.2 - 1)

/-- Embeds `drunkDriver.apply_zigzag` (lines 489-527): with probability equal
to the intensity, substitute the perpendicular neighbor of the intended cell
when it is in bounds and free, alternating the zigzag side in every applied
attempt (also when the substitute is rejected). -/
def apply_zigzag (g : CityGrid) (occ : Coord → Bool) (o : Oracle)
    (self : CarState) (intended : Coord) : CarState × Coord :=
  if !o.zigzagRoll then (self, intended)
  else
    match get_road_at g self.pos with
    | none => (self, intended)
    | some rd =>
      if inBounds g (zigzagTarget rd self.zigzagLeft intended)
          && !(isObstacleB g (zigzagTarget rd self.zigzagLeft intended))
          && !(occ (zigzagTarget rd self.zigzagLeft intended)) then
        ({ self with zigzagLeft := !self.zigzagLeft },
          zigzagTarget rd self.zigzagLeft intended)
      else ({ self with zigzagLeft := !self.zigzagLeft }, intended)

/-- The shared pattern of the drunk movement branches (lines 551-567,
580-594, 600-615): crash-roll against an obstacle or car in the target,
otherwise commit the move. -/
def drunkTryMove (g : CityGrid) (occ : Coord → Bool) (o : Oracle)
    (self : CarState) (next : Coord) (ndir : Direction) : CarState :=
  if isObstacleB g next then
    if o.crashRoll then
      { self with crashed := true, crashRecoverySteps := 10 }
    else self
  else if occ next then
    if o.crashRoll then
      { self with crashed := true, crashRecoverySteps := 10 }
    else self
  else { self with pos := next, dir := ndir }

/-- Zigzag application and final position/direction commit (lines 639-656). -/
def drunkCommitZigzag (g : CityGrid) (occ : Coord → Bool) (o : Oracle)
    (self : CarState) (next : Coord) : CarState :=
  { (apply_zigzag g occ o self next).1 with
    pos := (apply_zigzag g occ o self next).2,
    dir := dirOfMove self.pos (apply_zigzag g occ o self next).2 self.dir }

/-- Body of the path-following branch once the drunk forward check passed:
pop the next cell, crash-roll on obstacles or cars there, apply the zigzag
perturbation, and commit. -/
def drunkFollowPath2 (g : CityGrid) (occ : Coord → Bool) (o : Oracle)
    (self : CarState) : CarState :=
  match self.path with
  | [] => self
  | next :: rest =>
    if isObstacleB g next then
      if o.crashRoll then
        { self with path := rest, crashed := true, crashRecoverySteps := 10 }
      else { self with path := rest }
    else if occ next then
      if o.crashRoll then
        { self with path := rest, crashed := true, crashRecoverySteps := 10 }
      else { self with path := rest }
    else
      drunkCommitZigzag g occ o { self with path := rest } next

/-- The path-following branch of `drunkDriver.step` (lines 616-656). -/
def drunkFollowPath (g : CityGrid) (lights occ : Coord → Bool) (o : Oracle)
    (self : CarState) : CarState :=
  if (can_move_forward_drunk g lights occ o self).1 then
    drunkFollowPath2 g occ o (can_move_forward_drunk g lights occ o self).2
  else (can_move_forward_drunk g lights occ o self).2

/-- The forgotten-route window branch of `drunkDriver.step` (lines 547-568):
decrement the window counter, then attempt a uniformly random in-bounds
neighbor move subject to obstacle/car crash rolls. -/
def drunkRandomWindow (g : CityGrid) (occ : Coord → Bool) (o : Oracle)
    (self : CarState) : CarState :=
  match get_random_neighbor g o self with
  | none => { self with randomStepsRemaining := self.randomStepsRemaining - 1 }
  | some (next, ndir) =>
    drunkTryMove g occ o
      { self with randomStepsRemaining := self.randomStepsRemaining - 1 }
      next ndir

/-- Embeds `drunkDriver.step` (lines 529-656). -/
def drunkStep (g : CityGrid) (lights occ : Coord → Bool) (o : Oracle)
    (self : CarState) : CarState :=
  if self.crashRecoverySteps = 0 then
    if self.pos = self.dest then
      { self with reachedDestination := true, active := false }
    else if 0 < self.randomStepsRemaining then
      drunkRandomWindow g occ o self
    else if o.forgetRoll then
      { self with
        path := [],
        randomStepsRemaining := 3 + o.randStepsIdx % 3 }
    else if o.wrongWayRoll then
      match get_wrong_way_neighbor g self with
      | none => self
      | some (next, ndir) => drunkTryMove g occ o self next ndir
    else if o.randomMoveRoll then
      match get_random_neighbor g o self with
      | none => self
      | some (next, ndir) => drunkTryMove g occ o self next ndir
    else
      drunkFollowPath g lights occ o
        (if self.path = [] then
          { self with path :=
            find_path_to_destination g occ self.pos self.dest }
        else self)
  else if self.crashRecoverySteps = 1 then
    { self with crashRecoverySteps := 0, crashed := false }
  else { self with crashRecoverySteps := self.crashRecoverySteps - 1 }

/-- Step dispatcher over the two agent classes. -/
def carStep (g : CityGrid) (lights occ : Coord → Bool) (o : Oracle)
    (self : CarState) : CarState :=
  match self.kind with
  | CarKind.normal => carStepNormal g lights occ o self
  | CarKind.drunk => drunkStep g lights occ o self

/-! ### Model-level scheduling (`CityModel.step`, `CityModel.spawn_car`) -/

/-- Presence of another (active) car at the cell, excluding the car at list
index `i`: the `any(isinstance(agent, Car) for agent in cell.agents if
agent != self)` queries issued while agent `i` steps. -/
def occExcept (cars : List CarState) (i : Nat) : Coord → Bool :=
  fun c => cars.enum.any
    (fun p => decide (p.1 ≠ i) && p.2.active && decide (p.2.pos = c))

/-- Presence of any active car at the cell. -/
def anyCarAt (cars : List CarState) (c : Coord) : Bool :=
  cars.any (fun car => car.active && decide (car.pos = c))

/-- Occupancy from a whole car list (used when probing spawn routes, where
the temporary car excludes itself). -/
def occOf (cars : List CarState) : Coord → Bool :=
  fun c => anyCarAt cars c

/-- One agent invocation inside the tick's shuffled loop: car `i` steps
against the immediately-committed occupancy of every other car. -/
def stepAgent (g : CityGrid) (lights : Coord → Bool) (cars : List CarState)
    (i : Nat) (o : Oracle) : List CarState :=
  match cars[i]? with
  | none => cars
  | some car =>
    if car.active then cars.set i (carStep g lights (occExcept cars i) o car)
    else cars

/-- One entry of the shuffled agent loop: which car steps, the light states
it observes (lights may toggle mid-tick) and its random outcomes. -/
structure AgentStepSpec : Type where
  idx : Nat
  lights : Coord → Bool
  oracle : Oracle

/-- Sequential execution of agent steps in an arbitrary (e.g. shuffled)
order. -/
def runAgents (g : CityGrid) (steps : List AgentStepSpec)
    (cars : List CarState) : List CarState :=
  steps.foldl (fun cs s => stepAgent g s.lights cs s.idx s.oracle) cars

/-- End-of-tick list maintenance: cars removed from `model.agents` drop out
of `self.cars`. -/
def cleanupCars (cars : List CarState) : List CarState :=
  cars.filter (fun c => c.active)

/-- Fresh car as built by `Car.__init__` plus the spawn-direction assignment
of `CityModel.spawn_car` (lines 160-165 of `model.py`). -/
def mkNewCar (g : CityGrid) (sc dc : Coord) : CarState :=
  { pos := sc, dest := dc,
    dir := match get_road_at g sc with
      | some rd => rd
      | none => Direction.right,
    path := [], kind := CarKind.normal, crashed := false,
    crashRecoverySteps := 0, randomStepsRemaining := 0, zigzagLeft := true,
    reachedDestination := false, waitingAtLight := false, active := true }

/-- The attempt loop of `CityModel.spawn_car` (lines 136-173): pick a spawn
point, skip it when occupied, probe a route with a temporary car (which
excludes itself from occupancy, so the probe sees exactly the other cars)
and commit only on a nonzero-length path. -/
def spawnAttempts (g : CityGrid) (spawnPoints destinations : List Coord)
    (cars : List CarState) : List (Nat × Nat) → Option CarState
  | [] => none
  | (si, di) :: rest =>
    if anyCarAt cars (spawnPoints.getD (si % spawnPoints.length) (0, 0)) then
      spawnAttempts g spawnPoints destinations cars rest
    else if 0 < (find_path_to_destination g (occOf cars)
        (spawnPoints.getD (si % spawnPoints.length) (0, 0))
        (destinations.getD (di % destinations.length) (0, 0))).length then
      some (mkNewCar g (spawnPoints.getD (si % spawnPoints.length) (0, 0))
        (destinations.getD (di % destinations.length) (0, 0)))
    else spawnAttempts g spawnPoints destinations cars rest

/-- Embeds `CityModel.spawn_car`: `None` without spawn points, destinations
or a successful attempt (the oracle list carries the `random.choice` pairs of
the at most 100 attempts). -/
def spawn_car (g : CityGrid) (spawnPoints destinations : List Coord)
    (cars : List CarState) (oracle : List (Nat × Nat)) : Option CarState :=
  match spawnPoints, destinations with
  | [], _ => none
  | _, [] => none
  | _ :: _, _ :: _ => spawnAttempts g spawnPoints destinations cars oracle

/-- Registration of a successfully spawned car (`self.cars.append(car)`). -/
def spawnPhase (g : CityGrid) (spawnPoints destinations : List Coord)
    (oracle : List (Nat × Nat)) (cars : List CarState) : List CarState :=
  match spawn_car g spawnPoints destinations cars oracle with
  | some car => cars ++ [car]
  | none => cars

/-- Position exclusivity: no two active cars occupy one cell. -/
def PosOk (cars : List CarState) : Prop :=
  cars.Pairwise
    (fun a b => a.active = true → b.active = true → a.pos ≠ b.pos)

/-- Computable decision procedure for pairwise properties. -/
def pairwiseDec {β : Type} (R : β → β → Prop) [DecidableRel R] :
    ∀ l : List β, Decidable (l.Pairwise R)
  | [] => isTrue List.Pairwise.nil
  | b :: l =>
    haveI := pairwiseDec R l
    decidable_of_iff ((∀ x ∈ l, R b x) ∧ l.Pairwise R)
      List.pairwise_cons.symm

instance posOkDecidable (cars : List CarState) : Decidable (PosOk cars) :=
  pairwiseDec _ cars

/-- A fixed random outcome: every probabilistic roll fails and every choice
index is zero (used to exercise the step functions at concrete states). -/
def oracle0 : Oracle :=
  { crashRoll := false, forgetRoll := false, wrongWayRoll := false,
    randomMoveRoll := false, ignoreLightRoll := false, zigzagRoll := false,
    choiceIdx := 0, randStepsIdx := 0 }

/-- Light map with every light green. -/
def allGreen : Coord → Bool := fun _ => true

/-- Counter discipline of the open list: every entry's insertion counter is
bounded by the state's monotone counter, and no two entries share a counter
(each `heappush` uses a fresh `counter` value, the tie-break second key). -/
def CtrInv {α : Type} [DecidableEq α] (st : AState α) : Prop :=
  (∀ e ∈ st.openL, e.ctr ≤ st.ctr) ∧
  st.openL.Pairwise (fun a b => a.ctr ≠ b.ctr)

/-! ### Walks and graph distance

The cost model of the search is one unit per edge of the directed legality
graph induced by `get_valid_neighbors`; the optimal distance is the least
number of edges of a walk. -/

section GraphTheory

variable {α : Type} (succ : α → List α)

variable {succ}

theorem walkTo_nil (s : α) : WalkTo succ s [] s :=
  ⟨List.Chain.nil, rfl⟩

theorem reach_refl (s : α) : Reach succ s s :=
  ⟨[], walkTo_nil s⟩

theorem walkTo_cons {s y t : α} {p : List α} :
    WalkTo succ s (y :: p) t ↔ y ∈ succ s ∧ WalkTo succ y p t := by
  unfold WalkTo
  rw [List.chain_cons, List.getLastD_cons]
  tauto

theorem walkTo_snoc {s t b : α} {p : List α} (h : WalkTo succ s p t)
    (hb : b ∈ succ t) : WalkTo succ s (p ++ [b]) b := by
  obtain ⟨hc, hl⟩ := h
  refine ⟨?_, List.getLastD_concat _ _ _⟩
  induction p generalizing s with
  | nil =>
    simp only [List.getLastD_nil] at hl
    subst hl
    exact List.chain_cons.mpr ⟨hb, List.Chain.nil⟩
  | cons y ys ih =>
    rw [List.chain_cons] at hc
    rw [List.getLastD_cons] at hl
    rw [List.cons_append, List.chain_cons]
    exact ⟨hc.1, ih hc.2 hl⟩

theorem minWalkLen_exists {s t : α} (h : Reach succ s t) :
    ∃ n, IsMinWalkLen succ s t n := by
  classical
  obtain ⟨p, hp⟩ := h
  have hne : {n : Nat | ∃ q, WalkTo succ s q t ∧ q.length = n}.Nonempty :=
    ⟨p.length, ⟨p, hp, rfl⟩⟩
  obtain ⟨q, hq, hql⟩ := Nat.sInf_mem hne
  exact ⟨sInf {n : Nat | ∃ q, WalkTo succ s q t ∧ q.length = n},
    ⟨q, hq, hql⟩, fun r hr => Nat.sInf_le ⟨r, hr, rfl⟩⟩

theorem minWalkLen_unique {s t : α} {n m : Nat}
    (hn : IsMinWalkLen succ s t n) (hm : IsMinWalkLen succ s t m) : n = m := by
  obtain ⟨⟨p, hp, hpl⟩, hnle⟩ := hn
  obtain ⟨⟨q, hq, hql⟩, hmle⟩ := hm
  have h1 := hnle q hq
  have h2 := hmle p hp
  omega

theorem minWalkLen_self (s : α) : IsMinWalkLen succ s s 0 :=
  ⟨⟨[], walkTo_nil s, rfl⟩, fun _ _ => Nat.zero_le _⟩

/-- Consistency of the heuristic propagated along a walk. -/
theorem heuristic_along_walk {hf : α → Nat}
    (hcons : ∀ a b, b ∈ succ a → hf a ≤ hf b + 1)
    {s t : α} {p : List α} (h : WalkTo succ s p t) :
    hf s ≤ p.length + hf t := by
  induction p generalizing s with
  | nil =>
    obtain ⟨-, hl⟩ := h
    simp at hl
    simp [hl]
  | cons y ys ih =>
    obtain ⟨h1, h2⟩ := walkTo_cons.mp h
    have := ih h2
    have := hcons s y h1
    simp only [List.length_cons]
    omega

end GraphTheory

/-! ### Properties of the pop-minimum operation -/

section PopMin

variable {α : Type}

theorem entryLe_refl (a : Entry α) : entryLe a a :=
  Or.inr ⟨rfl, Nat.le_refl _⟩

theorem entryLe_trans {a b c : Entry α} (h1 : entryLe a b) (h2 : entryLe b c) :
    entryLe a c := by
  unfold entryLe at h1 h2 ⊢
  omega

theorem entryLe_total (a b : Entry α) : entryLe a b ∨ entryLe b a := by
  unfold entryLe
  omega

theorem popMin_cons_none {a : Entry α} {es : List (Entry α)}
    (hm : popMin es = none) : popMin (a :: es) = some (a, []) := by
  rw [popMin, hm]

theorem popMin_cons_some {a m : Entry α} {es rest : List (Entry α)}
    (hm : popMin es = some (m, rest)) :
    popMin (a :: es) =
      if entryLe a m then some (a, es) else some (m, a :: rest) := by
  rw [popMin, hm]

theorem popMin_eq_none {l : List (Entry α)} (h : popMin l = none) : l = [] := by
  cases l with
  | nil => rfl
  | cons e es =>
    cases hm : popMin es with
    | none => rw [popMin_cons_none hm] at h; exact absurd h (by simp)
    | some pr =>
      obtain ⟨m, rest⟩ := pr
      rw [popMin_cons_some hm] at h
      by_cases hle : entryLe e m <;> simp [hle] at h

theorem popMin_perm {l : List (Entry α)} {e : Entry α} {r : List (Entry α)}
    (h : popMin l = some (e, r)) : l.Perm (e :: r) := by
  induction l generalizing e r with
  | nil => rw [popMin] at h; exact absurd h (by simp)
  | cons a es ih =>
    cases hm : popMin es with
    | none =>
      rw [popMin_cons_none hm] at h
      have hes := popMin_eq_none hm
      subst hes
      simp only [Option.some.injEq, Prod.mk.injEq] at h
      obtain ⟨rfl, rfl⟩ := h
      exact List.Perm.refl _
    | some pr =>
      obtain ⟨m, rest⟩ := pr
      rw [popMin_cons_some hm] at h
      by_cases hle : entryLe a m
      · rw [if_pos hle] at h
        simp only [Option.some.injEq, Prod.mk.injEq] at h
        obtain ⟨rfl, rfl⟩ := h
        exact List.Perm.refl _
      · rw [if_neg hle] at h
        simp only [Option.some.injEq, Prod.mk.injEq] at h
        rw [← h.1, ← h.2]
        exact ((ih hm).cons a).trans (List.Perm.swap m a rest)

theorem popMin_min {l : List (Entry α)} {e : Entry α} {r : List (Entry α)}
    (h : popMin l = some (e, r)) : ∀ x ∈ l, entryLe e x := by
  induction l generalizing e r with
  | nil => rw [popMin] at h; exact absurd h (by simp)
  | cons a es ih =>
    cases hm : popMin es with
    | none =>
      rw [popMin_cons_none hm] at h
      have hes := popMin_eq_none hm
      subst hes
      simp only [Option.some.injEq, Prod.mk.injEq] at h
      obtain ⟨rfl, rfl⟩ := h
      intro x hx
      rcases List.mem_cons.mp hx with rfl | hx
      · exact entryLe_refl _
      · exact absurd hx (by simp)
    | some pr =>
      obtain ⟨m, rest⟩ := pr
      rw [popMin_cons_some hm] at h
      by_cases hle : entryLe a m
      · rw [if_pos hle] at h
        simp only [Option.some.injEq, Prod.mk.injEq] at h
        obtain ⟨rfl, rfl⟩ := h
        intro x hx
        rcases List.mem_cons.mp hx with rfl | hx
        · exact entryLe_refl _
        · exact entryLe_trans hle (ih hm x hx)
      · rw [if_neg hle] at h
        simp only [Option.some.injEq, Prod.mk.injEq] at h
        intro x hx
        rw [← h.1]
        rcases List.mem_cons.mp hx with rfl | hx2
        · exact (entryLe_total x m).resolve_left hle
        · exact ih hm x hx2

theorem popMin_mem {l : List (Entry α)} {e : Entry α} {r : List (Entry α)}
    (h : popMin l = some (e, r)) : e ∈ l :=
  (popMin_perm h).symm.subset (List.mem_cons_self e r)

theorem popMin_rest_subset {l : List (Entry α)} {e : Entry α}
    {r : List (Entry α)} (h : popMin l = some (e, r)) : ∀ x ∈ r, x ∈ l :=
  fun x hx => (popMin_perm h).symm.subset (List.mem_cons_of_mem e hx)

theorem mem_rest_of_ne {l : List (Entry α)} {e : Entry α} {r : List (Entry α)}
    (h : popMin l = some (e, r)) {x : Entry α} (hx : x ∈ l) (hne : x ≠ e) :
    x ∈ r := by
  have := (popMin_perm h).subset hx
  rcases List.mem_cons.mp this with rfl | h2
  · exact absurd rfl hne
  · exact h2

end PopMin

/-! ### Correctness of the A* loop

The classical invariants of A* with unit edge costs and a consistent
heuristic, specialised to the lazy-deletion variant of `agent.py` (stale
entries are skipped through the closed set, improved g-scores push fresh
entries). -/

section AstarProof

variable {α : Type} [DecidableEq α]
variable (succ : α → List α) (hf : α → Nat) (start : α)

variable {succ hf start}

/-- Unfolding of the loop body when the open list is empty. -/
theorem astarLoop_succ_none {α : Type} [DecidableEq α] (succ : α → List α)
    (hf : α → Nat) (goal : α) (fuel : Nat) (st : AState α)
    (hpop : popMin st.openL = none) :
    astarLoop succ hf goal (fuel + 1) st = some [] := by
  rw [astarLoop, hpop]

/-- Unfolding of the loop body when an entry is popped. -/
theorem astarLoop_succ_pop {α : Type} [DecidableEq α] (succ : α → List α)
    (hf : α → Nat) (goal : α) (fuel : Nat) (st : AState α)
    {e : Entry α} {rest : List (Entry α)}
    (hpop : popMin st.openL = some (e, rest)) :
    astarLoop succ hf goal (fuel + 1) st =
      if e.cell ∈ st.closed then
        astarLoop succ hf goal fuel { st with openL := rest }
      else if e.cell = goal then some e.path.tail
      else
        astarLoop succ hf goal fuel
          (expand succ hf e
            { st with openL := rest, closed := insert e.cell st.closed }) := by
  rw [astarLoop, hpop]

/-- Along any walk from the start to a non-closed cell, the search keeps an
open entry whose f-score does not exceed the walk's cost through the cell plus
its heuristic (this is the frontier argument behind A* optimality). -/
theorem frontier_entry
    (hcons : ∀ a b, b ∈ succ a → hf a ≤ hf b + 1)
    {st : AState α} (hinv : Inv succ hf start st) :
    ∀ (p : List α) (x z : α), WalkTo succ x p z → x ∈ st.closed →
      z ∉ st.closed → ∀ kx, st.g x = some kx →
      ∃ e ∈ st.openL, e.f ≤ kx + p.length + hf z := by
  intro p
  induction p with
  | nil =>
    intro x z hw hx hz kx hkx
    obtain ⟨-, hl⟩ := hw
    simp only [List.getLastD_nil] at hl
    exact absurd (hl ▸ hx) hz
  | cons y p2 ih =>
    intro x z hw hx hz kx hkx
    obtain ⟨hedge, hw2⟩ := walkTo_cons.mp hw
    by_cases hy : y ∈ st.closed
    · obtain ⟨ky, hgy, hky⟩ := hinv.closedOpt y hy
      obtain ⟨pw, hpw, hpwl⟩ := hinv.grealized x kx hkx
      have hbound : ky ≤ kx + 1 := by
        have := hky.2 (pw ++ [y]) (walkTo_snoc hpw hedge)
        simp only [List.length_append, List.length_cons, List.length_nil] at this
        omega
      obtain ⟨e, he, hef⟩ := ih y z hw2 hy hz ky hgy
      refine ⟨e, he, ?_⟩
      simp only [List.length_cons]
      omega
    · rcases hinv.relaxed x hx y hedge with hyc | ⟨ky, kx2, hgy, hgx2, hkyx⟩
      · exact absurd hyc hy
      · have hkx2 : kx2 = kx := by
          rw [hkx] at hgx2
          exact (Option.some.injEq _ _ ▸ hgx2).symm
        obtain ⟨e, he, hecell, helen⟩ := hinv.openCover y hy ky hgy
        obtain ⟨pe, hpe, hpw, hpf⟩ := hinv.entries e he
        have hplen : pe.length = ky := by
          have : e.path.length = pe.length + 1 := by rw [hpe]; simp
          omega
        have hhy : hf y ≤ p2.length + hf z := by
          have := heuristic_along_walk hcons hw2
          exact this
        refine ⟨e, he, ?_⟩
        rw [hpf, hplen, hecell]
        simp only [List.length_cons]
        omega

/-- Whenever the goal of the argument walk is not closed, the open list holds
an entry with f-score at most the walk's length plus the target heuristic. -/
theorem reach_entry
    (hcons : ∀ a b, b ∈ succ a → hf a ≤ hf b + 1)
    {st : AState α} (hinv : Inv succ hf start st) :
    ∀ (p : List α) (z : α), WalkTo succ start p z → z ∉ st.closed →
      ∃ e ∈ st.openL, e.f ≤ p.length + hf z := by
  intro p z hw hz
  by_cases hs : start ∈ st.closed
  · obtain ⟨e, he, hef⟩ := frontier_entry hcons hinv p start z hw hs hz 0 hinv.gstart
    exact ⟨e, he, by omega⟩
  · obtain ⟨e, he, hecell, helen⟩ := hinv.openCover start hs 0 hinv.gstart
    obtain ⟨pe, hpe, hpw, hpf⟩ := hinv.entries e he
    have hplen : pe.length = 0 := by
      have : e.path.length = pe.length + 1 := by rw [hpe]; simp
      omega
    have := heuristic_along_walk hcons hw
    refine ⟨e, he, ?_⟩
    rw [hpf, hplen, hecell]
    omega

/-- When a not-yet-closed entry is popped, its carried path is optimal and the
g-score of its cell equals that optimal length: the expansion of A* with a
consistent heuristic settles each cell at its true distance. -/
theorem popped_optimal
    (hcons : ∀ a b, b ∈ succ a → hf a ≤ hf b + 1)
    {st : AState α} (hinv : Inv succ hf start st)
    {e : Entry α} {rest : List (Entry α)}
    (hpop : popMin st.openL = some (e, rest)) (hnc : e.cell ∉ st.closed) :
    ∃ p, e.path = start :: p ∧ WalkTo succ start p e.cell ∧
      IsMinWalkLen succ start e.cell p.length ∧
      st.g e.cell = some p.length := by
  obtain ⟨p, hpath, hwalk, hfe⟩ := hinv.entries e (popMin_mem hpop)
  have hmin : ∀ q, WalkTo succ start q e.cell → p.length ≤ q.length := by
    intro q hq
    obtain ⟨e2, he2, he2f⟩ := reach_entry hcons hinv q e.cell hq hnc
    have hle := popMin_min hpop e2 he2
    have hef : e.f ≤ e2.f := by
      unfold entryLe at hle
      omega
    rw [hfe] at hef
    omega
  obtain ⟨k, hk, hkle⟩ := hinv.gle e (popMin_mem hpop)
  obtain ⟨pw, hpw, hpwl⟩ := hinv.grealized _ _ hk
  have h1 : p.length ≤ k := hpwl ▸ hmin pw hpw
  have h2 : e.path.length = p.length + 1 := by rw [hpath]; simp
  have hkp : k = p.length := by omega
  exact ⟨p, hpath, hwalk, ⟨⟨p, hwalk, rfl⟩, hmin⟩, by rw [hk, hkp]⟩

theorem relaxOne_closed (hf : α → Nat) (e : Entry α) (st : AState α) (n : α) :
    (relaxOne hf e st n).closed = st.closed := by
  unfold relaxOne
  split
  · rfl
  · split
    · rfl
    · rfl

theorem relaxOne_g_closed (hf : α → Nat) (e : Entry α) (st : AState α) (n : α)
    {c : α} (hc : c ∈ st.closed) : (relaxOne hf e st n).g c = st.g c := by
  unfold relaxOne
  split
  · rfl
  · next hn =>
    split
    · show (if c = n then _ else st.g c) = st.g c
      rw [if_neg]
      intro h
      exact hn (h ▸ hc)
    · rfl

theorem relaxOne_g_mono (hf : α → Nat) (e : Entry α) (st : AState α) (n : α)
    {c : α} {k : Nat} (h : st.g c = some k) :
    ∃ k2, (relaxOne hf e st n).g c = some k2 ∧ k2 ≤ k := by
  unfold relaxOne
  split
  · exact ⟨k, h, Nat.le_refl _⟩
  · split
    · next himp =>
      show ∃ k2, (if c = n then some (tentative st e.cell) else st.g c) = some k2 ∧ k2 ≤ k
      by_cases hcn : c = n
      · subst hcn
        rw [if_pos rfl]
        refine ⟨tentative st e.cell, rfl, ?_⟩
        unfold improveCheck at himp
        rw [h] at himp
        simp only [decide_eq_true_eq] at himp
        omega
      · rw [if_neg hcn]
        exact ⟨k, h, Nat.le_refl _⟩
    · exact ⟨k, h, Nat.le_refl _⟩

theorem relaxOne_openL (hf : α → Nat) (e : Entry α) (st : AState α) (n : α) :
    ∃ δ, (relaxOne hf e st n).openL = st.openL ++ δ ∧ δ.length ≤ 1 := by
  unfold relaxOne
  split
  · exact ⟨[], by simp⟩
  · split
    · exact ⟨_, rfl, by simp [pushState]⟩
    · exact ⟨[], by simp⟩

theorem expandFold_closed (hf : α → Nat) (e : Entry α) :
    ∀ (l : List α) (st : AState α),
      (l.foldl (relaxOne hf e) st).closed = st.closed := by
  intro l
  induction l with
  | nil => intro st; rfl
  | cons y ys ih => intro st; rw [List.foldl_cons, ih, relaxOne_closed]

theorem expandFold_g_closed (hf : α → Nat) (e : Entry α) :
    ∀ (l : List α) (st : AState α) (c : α), c ∈ st.closed →
      (l.foldl (relaxOne hf e) st).g c = st.g c := by
  intro l
  induction l with
  | nil => intro st c _; rfl
  | cons y ys ih =>
    intro st c hc
    rw [List.foldl_cons, ih _ c (by rw [relaxOne_closed]; exact hc),
      relaxOne_g_closed _ _ _ _ hc]

theorem expandFold_g_mono (hf : α → Nat) (e : Entry α) :
    ∀ (l : List α) (st : AState α) (c : α) (k : Nat), st.g c = some k →
      ∃ k2, (l.foldl (relaxOne hf e) st).g c = some k2 ∧ k2 ≤ k := by
  intro l
  induction l with
  | nil => intro st c k h; exact ⟨k, h, Nat.le_refl _⟩
  | cons y ys ih =>
    intro st c k h
    obtain ⟨k1, hk1, hk1le⟩ := relaxOne_g_mono hf e st y h
    obtain ⟨k2, hk2, hk2le⟩ := ih _ c k1 hk1
    exact ⟨k2, hk2, Nat.le_trans hk2le hk1le⟩

theorem expandFold_openL (hf : α → Nat) (e : Entry α) :
    ∀ (l : List α) (st : AState α),
      ∃ δ, (l.foldl (relaxOne hf e) st).openL = st.openL ++ δ ∧
        δ.length ≤ l.length := by
  intro l
  induction l with
  | nil => intro st; exact ⟨[], by simp⟩
  | cons y ys ih =>
    intro st
    obtain ⟨δ1, hδ1, hδ1l⟩ := relaxOne_openL hf e st y
    obtain ⟨δ2, hδ2, hδ2l⟩ := ih (relaxOne hf e st y)
    refine ⟨δ1 ++ δ2, ?_, ?_⟩
    · rw [List.foldl_cons, hδ2, hδ1, List.append_assoc]
    · simp only [List.length_append, List.length_cons]
      omega

/-- Single-neighbor relaxation preserves the core invariant, keeps every other
closed cell relaxed, keeps the expanded cell's optimal g-score, and leaves the
processed neighbor relaxed with respect to the optimal g-score `d`. -/
theorem relaxOne_inv
    {c0 : α} {d : Nat} (hd : IsMinWalkLen succ start c0 d)
    {e : Entry α} (hecell : e.cell = c0)
    {p0 : List α} (hepath : e.path = start :: p0)
    (hp0w : WalkTo succ start p0 c0) (hp0l : p0.length = d)
    {st : AState α} (hcc : c0 ∈ st.closed) (hgc : st.g c0 = some d)
    (hcore : InvCore succ hf start st)
    (hrel : RelaxedExcept succ c0 st)
    {n : α} (hn : n ∈ succ c0) :
    InvCore succ hf start (relaxOne hf e st n) ∧
    RelaxedExcept succ c0 (relaxOne hf e st n) ∧
    (relaxOne hf e st n).g c0 = some d ∧
    (n ∈ (relaxOne hf e st n).closed ∨
      ∃ ky, (relaxOne hf e st n).g n = some ky ∧ ky ≤ d + 1) := by
  have htg : tentative st e.cell = d + 1 := by
    unfold tentative
    rw [hecell, hgc]
    rfl
  by_cases hncl : n ∈ st.closed
  · have hid : relaxOne hf e st n = st := by
      unfold relaxOne
      rw [if_pos hncl]
    rw [hid]
    exact ⟨hcore, hrel, hgc, Or.inl hncl⟩
  · by_cases himp : improveCheck st e.cell n = true
    · have hid : relaxOne hf e st n = pushState hf e st n := by
        unfold relaxOne
        rw [if_neg hncl, if_pos himp]
      rw [hid]
      have hc0n : c0 ≠ n := fun h => hncl (h ▸ hcc)
      have hEcell : (pushState hf e st n).g n = some (tentative st e.cell) := by
        show (if n = n then _ else _) = _
        rw [if_pos rfl]
      have hgother : ∀ c, c ≠ n → (pushState hf e st n).g c = st.g c := by
        intro c hcn
        show (if c = n then _ else _) = _
        rw [if_neg hcn]
      have hElen : e.path.length = d + 1 := by
        rw [hepath]
        simp [hp0l]
      refine ⟨?_, ?_, ?_, ?_⟩
      · refine ⟨?_, ?_, ?_, ?_, ?_, ?_⟩
        · -- gstart
          have hns : n ≠ start := by
            intro h
            subst h
            unfold improveCheck at himp
            rw [hcore.gstart] at himp
            simp at himp
          rw [hgother start (fun h => hns h.symm)]
          exact hcore.gstart
        · -- entries
          intro e2 he2
          rcases List.mem_append.mp he2 with h2 | h2
          · exact hcore.entries e2 h2
          · have he2E := List.mem_singleton.mp h2
            subst he2E
            refine ⟨p0 ++ [n], ?_, walkTo_snoc hp0w (hecell ▸ hn), ?_⟩
            · show e.path ++ [n] = start :: (p0 ++ [n])
              rw [hepath]
              rfl
            · show tentative st e.cell + hf n = (p0 ++ [n]).length + hf n
              rw [htg]
              simp [hp0l]
        · -- grealized
          intro c k hgk
          by_cases hcn : c = n
          · rw [hcn] at hgk ⊢
            rw [hEcell] at hgk
            have hk : k = tentative st e.cell := by
              injection hgk with h
              exact h.symm
            subst hk
            rw [htg]
            exact ⟨p0 ++ [n], walkTo_snoc hp0w (hecell ▸ hn), by simp [hp0l]⟩
          · rw [hgother c hcn] at hgk
            exact hcore.grealized c k hgk
        · -- gle
          intro e2 he2
          rcases List.mem_append.mp he2 with h2 | h2
          · obtain ⟨k, hk, hkle⟩ := hcore.gle e2 h2
            by_cases hcn : e2.cell = n
            · rw [hcn] at hk
              have hlt : tentative st e.cell < k := by
                unfold improveCheck at himp
                rw [hk] at himp
                simpa using himp
              refine ⟨tentative st e.cell, by rw [hcn, hEcell], by omega⟩
            · exact ⟨k, by rw [hgother _ hcn]; exact hk, hkle⟩
          · have he2E := List.mem_singleton.mp h2
            subst he2E
            refine ⟨tentative st e.cell, hEcell, ?_⟩
            show tentative st e.cell + 1 ≤ (e.path ++ [n]).length
            rw [htg]
            simp [hElen]
        · -- closedOpt
          intro c hc
          have hcn : c ≠ n := fun h => hncl (h ▸ hc)
          obtain ⟨k, hk, hmk⟩ := hcore.closedOpt c hc
          exact ⟨k, by rw [hgother _ hcn]; exact hk, hmk⟩
        · -- openCover
          intro c hc k hgk
          by_cases hcn : c = n
          · rw [hcn] at hgk ⊢
            rw [hEcell] at hgk
            have hk : k = tentative st e.cell := by
              injection hgk with h
              exact h.symm
            subst hk
            refine ⟨⟨tentative st e.cell + hf n, st.ctr + 1, n, e.path ++ [n]⟩,
              List.mem_append_right _ (List.mem_singleton.mpr rfl), rfl, ?_⟩
            rw [htg]
            simp [hElen]
          · rw [hgother _ hcn] at hgk
            obtain ⟨e2, he2, he2c, he2l⟩ := hcore.openCover c hc k hgk
            exact ⟨e2, List.mem_append_left _ he2, he2c, he2l⟩
      · -- RelaxedExcept
        intro x hx hxc0 y hy
        rcases hrel x hx hxc0 y hy with hyc | ⟨ky, kx, hgy, hgx, hkyx⟩
        · exact Or.inl hyc
        · have hxn : x ≠ n := fun h => hncl (h ▸ hx)
          by_cases hyn : y = n
          · subst hyn
            have hlt : tentative st e.cell < ky := by
              unfold improveCheck at himp
              rw [hgy] at himp
              simpa using himp
            exact Or.inr ⟨tentative st e.cell, kx, hEcell,
              by rw [hgother _ hxn]; exact hgx, by omega⟩
          · exact Or.inr ⟨ky, kx, by rw [hgother _ hyn]; exact hgy,
              by rw [hgother _ hxn]; exact hgx, hkyx⟩
      · rw [hgother _ (fun h => hncl (h ▸ hcc))]
        exact hgc
      · exact Or.inr ⟨tentative st e.cell, hEcell, by rw [htg]⟩
    · have hid : relaxOne hf e st n = st := by
        unfold relaxOne
        rw [if_neg hncl, if_neg himp]
      rw [hid]
      refine ⟨hcore, hrel, hgc, Or.inr ?_⟩
      unfold improveCheck at himp
      cases hgn : st.g n with
      | none => rw [hgn] at himp; simp at himp
      | some gn =>
        rw [hgn] at himp
        simp only [decide_eq_true_eq] at himp
        rw [htg] at himp
        exact ⟨gn, rfl, by omega⟩

/-- Folding the single-neighbor relaxation over the whole neighbor list keeps
the invariants and leaves every processed neighbor relaxed. -/
theorem relaxFold_inv
    {c0 : α} {d : Nat} (hd : IsMinWalkLen succ start c0 d)
    {e : Entry α} (hecell : e.cell = c0)
    {p0 : List α} (hepath : e.path = start :: p0)
    (hp0w : WalkTo succ start p0 c0) (hp0l : p0.length = d) :
    ∀ (todo : List α), (∀ y ∈ todo, y ∈ succ c0) →
      ∀ (st : AState α), c0 ∈ st.closed → st.g c0 = some d →
        InvCore succ hf start st → RelaxedExcept succ c0 st →
        InvCore succ hf start (todo.foldl (relaxOne hf e) st) ∧
        RelaxedExcept succ c0 (todo.foldl (relaxOne hf e) st) ∧
        (todo.foldl (relaxOne hf e) st).g c0 = some d ∧
        ∀ y ∈ todo, y ∈ (todo.foldl (relaxOne hf e) st).closed ∨
          ∃ ky, (todo.foldl (relaxOne hf e) st).g y = some ky ∧ ky ≤ d + 1 := by
  intro todo
  induction todo with
  | nil =>
    intro _ st hcc hgc hcore hrel
    exact ⟨hcore, hrel, hgc, by simp⟩
  | cons y ys ih =>
    intro hmem st hcc hgc hcore hrel
    have hy : y ∈ succ c0 := hmem y (List.mem_cons_self _ _)
    obtain ⟨hcore1, hrel1, hgc1, hfact⟩ :=
      relaxOne_inv hd hecell hepath hp0w hp0l hcc hgc hcore hrel hy
    have hcc1 : c0 ∈ (relaxOne hf e st y).closed := by
      rw [relaxOne_closed]
      exact hcc
    obtain ⟨hcoreF, hrelF, hgcF, hfactsF⟩ :=
      ih (fun z hz => hmem z (List.mem_cons_of_mem _ hz))
        (relaxOne hf e st y) hcc1 hgc1 hcore1 hrel1
    rw [List.foldl_cons]
    refine ⟨hcoreF, hrelF, hgcF, ?_⟩
    intro z hz
    rcases List.mem_cons.mp hz with rfl | hz2
    · rcases hfact with hzc | ⟨ky, hky, hkyle⟩
      · left
        rw [expandFold_closed]
        exact hzc
      · obtain ⟨k2, hk2, hk2le⟩ := expandFold_g_mono hf e ys _ _ _ hky
        exact Or.inr ⟨k2, hk2, by omega⟩
    · exact hfactsF z hz2

/-- Expanding a freshly popped, not yet closed cell preserves the full loop
invariant. -/
theorem expand_inv
    (hcons : ∀ a b, b ∈ succ a → hf a ≤ hf b + 1)
    {st : AState α} (hinv : Inv succ hf start st)
    {e : Entry α} {rest : List (Entry α)}
    (hpop : popMin st.openL = some (e, rest)) (hnc : e.cell ∉ st.closed) :
    Inv succ hf start
      (expand succ hf e
        { st with openL := rest, closed := insert e.cell st.closed }) := by
  obtain ⟨p0, hepath, hp0w, hdmin, hgc⟩ := popped_optimal hcons hinv hpop hnc
  have hcore0 : InvCore succ hf start
      { st with openL := rest, closed := insert e.cell st.closed } := by
    refine ⟨hinv.gstart, ?_, hinv.grealized, ?_, ?_, ?_⟩
    · intro e2 he2
      exact hinv.entries e2 (popMin_rest_subset hpop e2 he2)
    · intro e2 he2
      exact hinv.gle e2 (popMin_rest_subset hpop e2 he2)
    · intro c hc
      rcases Finset.mem_insert.mp hc with hce | hc2
      · rw [hce]
        exact ⟨p0.length, hgc, hdmin⟩
      · exact hinv.closedOpt c hc2
    · intro c hc k hgk
      have hc2 : c ∉ st.closed := fun h => hc (Finset.mem_insert_of_mem h)
      have hcne : c ≠ e.cell := fun h => hc (h ▸ Finset.mem_insert_self _ _)
      obtain ⟨e2, he2, he2c, he2l⟩ := hinv.openCover c hc2 k hgk
      have he2ne : e2 ≠ e := fun h => hcne (by rw [← he2c, h])
      exact ⟨e2, mem_rest_of_ne hpop he2 he2ne, he2c, he2l⟩
  have hrel0 : RelaxedExcept succ e.cell
      { st with openL := rest, closed := insert e.cell st.closed } := by
    intro x hx hxne y hy
    have hx2 : x ∈ st.closed := by
      rcases Finset.mem_insert.mp hx with h | h
      · exact absurd h hxne
      · exact h
    rcases hinv.relaxed x hx2 y hy with hyc | hex
    · exact Or.inl (Finset.mem_insert_of_mem hyc)
    · exact Or.inr hex
  obtain ⟨hcoreF, hrelF, hgcF, hfactsF⟩ :=
    relaxFold_inv hdmin rfl hepath hp0w rfl (succ e.cell) (fun _ hy => hy)
      { st with openL := rest, closed := insert e.cell st.closed }
      (Finset.mem_insert_self _ _) hgc hcore0 hrel0
  refine ⟨hcoreF, ?_⟩
  intro x hx y hy
  by_cases hxe : x = e.cell
  · rcases hfactsF y (by rw [← hxe]; exact hy) with h | ⟨ky, hky, hkyle⟩
    · exact Or.inl h
    · exact Or.inr ⟨ky, p0.length, hky, by rw [hxe]; exact hgcF, by omega⟩
  · exact hrelF x hx hxe y hy

/-- Discarding a stale entry (cell already closed) preserves the invariant. -/
theorem skip_inv {st : AState α} (hinv : Inv succ hf start st)
    {e : Entry α} {rest : List (Entry α)}
    (hpop : popMin st.openL = some (e, rest)) (hcl : e.cell ∈ st.closed) :
    Inv succ hf start { st with openL := rest } := by
  refine ⟨⟨hinv.gstart, ?_, hinv.grealized, ?_, hinv.closedOpt, ?_⟩,
    hinv.relaxed⟩
  · intro e2 he2
    exact hinv.entries e2 (popMin_rest_subset hpop e2 he2)
  · intro e2 he2
    exact hinv.gle e2 (popMin_rest_subset hpop e2 he2)
  · intro c hc k hgk
    obtain ⟨e2, he2, he2c, he2l⟩ := hinv.openCover c hc k hgk
    have he2ne : e2 ≠ e := fun h => hc (by rw [← he2c, h]; exact hcl)
    exact ⟨e2, mem_rest_of_ne hpop he2 he2ne, he2c, he2l⟩

/-- Soundness and optimality of the A* loop: under the invariant, a returned
empty path means the goal is unreachable, and a returned path is an optimal
walk from start to goal.  (When start = goal the pre-check of line 37 answers
before the loop runs.) -/
theorem astarLoop_sound
    (hcons : ∀ a b, b ∈ succ a → hf a ≤ hf b + 1) (goal : α) :
    ∀ (fuel : Nat) (st : AState α), Inv succ hf start st → goal ∉ st.closed →
      ∀ ps, astarLoop succ hf goal fuel st = some ps →
        (ps = [] ∧ ¬ Reach succ start goal) ∨
        (WalkTo succ start ps goal ∧ IsMinWalkLen succ start goal ps.length) := by
  intro fuel
  induction fuel with
  | zero =>
    intro st _ _ ps h
    exact absurd h (by simp [astarLoop])
  | succ fuel ih =>
    intro st hinv hgoal ps h
    cases hpop : popMin st.openL with
    | none =>
      rw [astarLoop_succ_none succ hf goal fuel st hpop] at h
      simp only [Option.some.injEq] at h
      left
      refine ⟨h.symm, fun hr => ?_⟩
      obtain ⟨p, hp⟩ := hr
      obtain ⟨e2, he2, -⟩ := reach_entry hcons hinv p goal hp hgoal
      rw [popMin_eq_none hpop] at he2
      exact absurd he2 (List.not_mem_nil _)
    | some pr =>
      obtain ⟨e, rest⟩ := pr
      rw [astarLoop_succ_pop succ hf goal fuel st hpop] at h
      by_cases hcl : e.cell ∈ st.closed
      · rw [if_pos hcl] at h
        exact ih _ (skip_inv hinv hpop hcl) hgoal ps h
      · rw [if_neg hcl] at h
        by_cases hgl : e.cell = goal
        · rw [if_pos hgl] at h
          simp only [Option.some.injEq] at h
          obtain ⟨p0, hepath, hp0w, hdmin, -⟩ :=
            popped_optimal hcons hinv hpop hcl
          have hps : ps = p0 := by
            rw [← h, hepath, List.tail_cons]
          subst hps
          right
          rw [← hgl]
          exact ⟨hp0w, hdmin⟩
        · rw [if_neg hgl] at h
          refine ih _ (expand_inv hcons hinv hpop hcl) ?_ ps h
          have hc2 := expandFold_closed hf e (succ e.cell)
            { st with openL := rest, closed := insert e.cell st.closed }
          unfold expand
          rw [hc2]
          intro hmem
          rcases Finset.mem_insert.mp hmem with hh | hh
          · exact hgl hh.symm
          · exact hgoal hh

/-- Invariant after the very first loop iteration (the initial entry carries
`f_score = 0` rather than the heuristic of the start cell, so the general
invariant is only established once the start cell has been expanded). -/
theorem astar_init_inv :
    Inv succ hf start
      (expand succ hf ⟨0, 0, start, [start]⟩
        { openL := [], g := fun x => if x = start then some 0 else none,
          closed := insert start ∅, ctr := 0 }) := by
  have hcore0 : InvCore succ hf start
      { openL := [], g := fun x => if x = start then some 0 else none,
        closed := insert start ∅, ctr := 0 } := by
    refine ⟨?_, ?_, ?_, ?_, ?_, ?_⟩
    · show (if start = start then some 0 else none) = some 0
      rw [if_pos rfl]
    · intro e2 he2
      exact absurd he2 (List.not_mem_nil _)
    · intro c k hgk
      have hgk2 : (if c = start then (some 0 : Option Nat) else none) = some k :=
        hgk
      show ∃ p, WalkTo succ start p c ∧ p.length = k
      by_cases hc : c = start
      · rw [hc] at hgk2 ⊢
        rw [if_pos rfl] at hgk2
        have hk : k = 0 := by
          injection hgk2 with h2
          exact h2.symm
        subst hk
        exact ⟨[], walkTo_nil start, rfl⟩
      · rw [if_neg hc] at hgk2
        exact absurd hgk2 (by simp)
    · intro e2 he2
      exact absurd he2 (List.not_mem_nil _)
    · intro c hc
      have hc2 : c = start := by simpa using hc
      rw [hc2]
      refine ⟨0, ?_, minWalkLen_self start⟩
      show (if start = start then some 0 else none) = some 0
      rw [if_pos rfl]
    · intro c hc k hgk
      have hcs : c ≠ start := fun h => hc (by rw [h]; exact Finset.mem_insert_self _ _)
      have hgk2 : (if c = start then (some 0 : Option Nat) else none) = some k :=
        hgk
      rw [if_neg hcs] at hgk2
      exact absurd hgk2 (by simp)
  have hrel0 : RelaxedExcept succ start
      { openL := [], g := fun x => if x = start then some 0 else none,
        closed := insert start ∅, ctr := 0 } := by
    intro x hx hxne y _
    exact absurd (by simpa using hx) hxne
  obtain ⟨hcoreF, hrelF, hgcF, hfactsF⟩ :=
    @relaxFold_inv α _ succ hf start start 0 (minWalkLen_self start)
      ⟨0, 0, start, [start]⟩ rfl [] rfl (walkTo_nil start) rfl
      (succ start) (fun _ hy => hy)
      { openL := [], g := fun x => if x = start then some 0 else none,
        closed := insert start ∅, ctr := 0 }
      (Finset.mem_insert_self _ _)
      (show (if start = start then some 0 else none) = some 0 from if_pos rfl)
      hcore0 hrel0
  refine ⟨hcoreF, ?_⟩
  intro x hx y hy
  by_cases hxe : x = start
  · rcases hfactsF y (by rw [← hxe]; exact hy) with h | ⟨ky, hky, hkyle⟩
    · exact Or.inl h
    · exact Or.inr ⟨ky, 0, hky, by rw [hxe]; exact hgcF, by omega⟩
  · exact hrelF x hx hxe y hy

/-- Cells of entries produced by one relaxation step. -/
theorem relaxOne_openL_cells (hf : α → Nat) (e : Entry α) (st : AState α)
    (n : α) : ∀ x ∈ (relaxOne hf e st n).openL, x ∈ st.openL ∨ x.cell = n := by
  intro x hx
  unfold relaxOne at hx
  split at hx
  · exact Or.inl hx
  · split at hx
    · rcases List.mem_append.mp hx with h | h
      · exact Or.inl h
      · right
        rw [List.mem_singleton.mp h]
    · exact Or.inl hx

/-- Cells of entries produced by a whole expansion fold. -/
theorem expandFold_openL_cells (hf : α → Nat) (e : Entry α) :
    ∀ (l : List α) (st : AState α),
      ∀ x ∈ (l.foldl (relaxOne hf e) st).openL, x ∈ st.openL ∨ x.cell ∈ l := by
  intro l
  induction l with
  | nil =>
    intro st x hx
    exact Or.inl hx
  | cons y ys ih =>
    intro st x hx
    rw [List.foldl_cons] at hx
    rcases ih (relaxOne hf e st y) x hx with h | h
    · rcases relaxOne_openL_cells hf e st y x h with h2 | h2
      · exact Or.inl h2
      · exact Or.inr (by rw [h2]; exact List.mem_cons_self _ _)
    · exact Or.inr (List.mem_cons_of_mem _ h)

/-- Termination of the A* loop: the fuel only needs to exceed the measure
`|open| + (B+1)·(|universe| − |closed|)`, where `B` bounds the branching.
Every iteration pops one entry; an expansion closes a fresh universe cell
while pushing at most `B` entries. -/
theorem astarLoop_total (univC : Finset α) (B : Nat)
    (hsucc : ∀ a b, b ∈ succ a → b ∈ univC)
    (hB : ∀ a, (succ a).length ≤ B) (goal : α) :
    ∀ (fuel : Nat) (st : AState α), TInv univC st →
      st.openL.length + (B + 1) * (univC.card - st.closed.card) < fuel →
      astarLoop succ hf goal fuel st ≠ none := by
  intro fuel
  induction fuel with
  | zero =>
    intro st _ hm
    exact absurd hm (Nat.not_lt_zero _)
  | succ fuel ih =>
    intro st hT hm
    cases hpop : popMin st.openL with
    | none =>
      rw [astarLoop_succ_none succ hf goal fuel st hpop]
      simp
    | some pr =>
      obtain ⟨e, rest⟩ := pr
      rw [astarLoop_succ_pop succ hf goal fuel st hpop]
      have hrlen : rest.length + 1 = st.openL.length := by
        have := (popMin_perm hpop).length_eq
        simp only [List.length_cons] at this
        omega
      have hTrest : ∀ x ∈ rest, x.cell ∈ univC :=
        fun x hx => hT.1 x (popMin_rest_subset hpop x hx)
      by_cases hcl : e.cell ∈ st.closed
      · rw [if_pos hcl]
        apply ih { st with openL := rest } ⟨hTrest, hT.2⟩
        show rest.length + (B + 1) * (univC.card - st.closed.card) < fuel
        omega
      · rw [if_neg hcl]
        by_cases hgl : e.cell = goal
        · rw [if_pos hgl]
          simp
        · rw [if_neg hgl]
          have hecu : e.cell ∈ univC := hT.1 e (popMin_mem hpop)
          have hclosed2 : insert e.cell st.closed ⊆ univC := by
            rw [Finset.insert_subset_iff]
            exact ⟨hecu, hT.2⟩
          have hcard1 : (insert e.cell st.closed).card = st.closed.card + 1 :=
            Finset.card_insert_of_not_mem hcl
          have hcard2 : st.closed.card + 1 ≤ univC.card := by
            rw [← hcard1]
            exact Finset.card_le_card hclosed2
          obtain ⟨δ, hδ, hδl⟩ := expandFold_openL hf e (succ e.cell)
            { st with openL := rest, closed := insert e.cell st.closed }
          apply ih
          · constructor
            · intro x hx
              unfold expand at hx
              rcases expandFold_openL_cells hf e (succ e.cell) _ x hx with h | h
              · exact hTrest x h
              · exact hsucc e.cell x.cell h
            · unfold expand
              rw [expandFold_closed]
              exact hclosed2
          · unfold expand
            rw [expandFold_closed]
            rw [hδ]
            simp only [List.length_append]
            rw [hcard1]
            have hNc : univC.card - st.closed.card =
                (univC.card - (st.closed.card + 1)) + 1 := by omega
            rw [hNc, Nat.mul_add, Nat.mul_one] at hm
            have hBl := hB e.cell
            omega

/-- Combined top-level result specification for `astar`. -/
theorem astar_spec
    (hcons : ∀ a b, b ∈ succ a → hf a ≤ hf b + 1) (goal : α)
    (fuel : Nat) (ps : List α)
    (h : astar succ hf start goal fuel = some ps) :
    (ps = [] ∧ ¬ Reach succ start goal) ∨
    (WalkTo succ start ps goal ∧ IsMinWalkLen succ start goal ps.length) := by
  unfold astar at h
  by_cases hsg : start = goal
  · rw [if_pos hsg] at h
    simp only [Option.some.injEq] at h
    right
    rw [← h, ← hsg]
    exact ⟨walkTo_nil start, minWalkLen_self start⟩
  · rw [if_neg hsg] at h
    cases fuel with
    | zero => exact absurd h (by simp [astarLoop])
    | succ fuel =>
      have hpop0 : popMin (astarInit start).openL =
          some (⟨0, 0, start, [start]⟩, []) := rfl
      rw [astarLoop_succ_pop succ hf goal fuel (astarInit start) hpop0] at h
      rw [if_neg (by simp [astarInit] : (⟨0, 0, start, [start]⟩ : Entry α).cell ∉
        (astarInit start).closed)] at h
      rw [if_neg (by simpa using hsg)] at h
      refine astarLoop_sound hcons goal fuel _ astar_init_inv ?_ ps h
      unfold expand
      rw [expandFold_closed]
      intro hmem
      rcases Finset.mem_insert.mp hmem with hh | hh
      · exact hsg hh.symm
      · exact absurd hh (Finset.not_mem_empty _)

/-- Termination of the full search with fuel linear in the universe size. -/
theorem astar_total (univC : Finset α) (B : Nat)
    (hsucc : ∀ a b, b ∈ succ a → b ∈ univC)
    (hB : ∀ a, (succ a).length ≤ B)
    (hstart : start ∈ univC) (goal : α) (fuel : Nat)
    (hfuel : 2 + (B + 1) * univC.card ≤ fuel) :
    astar succ hf start goal fuel ≠ none := by
  unfold astar
  by_cases hsg : start = goal
  · rw [if_pos hsg]
    simp
  · rw [if_neg hsg]
    apply astarLoop_total univC B hsucc hB goal fuel (astarInit start)
    · constructor
      · intro e2 he2
        have : e2 = ⟨0, 0, start, [start]⟩ := by simpa [astarInit] using he2
        rw [this]
        exact hstart
      · intro c hc
        exact absurd hc (by simp [astarInit])
    · show (astarInit start).openL.length +
        (B + 1) * (univC.card - (astarInit start).closed.card) < fuel
      simp only [astarInit, List.length_cons, List.length_nil, Finset.card_empty,
        Nat.sub_zero]
      omega

end AstarProof

/-! ### Properties of the grid legality graph -/

section GridLemmas

theorem foldl_mono {β : Type} (f : List Coord → β → List Coord)
    (hmono : ∀ acc b x, x ∈ acc → x ∈ f acc b) :
    ∀ (l : List β) (acc : List Coord) (x : Coord), x ∈ acc →
      x ∈ l.foldl f acc := by
  intro l
  induction l with
  | nil => intro acc x hx; exact hx
  | cons b bs ih =>
    intro acc x hx
    rw [List.foldl_cons]
    exact ih _ x (hmono acc b x hx)

theorem foldl_mem_cases {β : Type} (P : β → Coord → Prop)
    (f : List Coord → β → List Coord)
    (hstep : ∀ acc b x, x ∈ f acc b → x ∈ acc ∨ P b x) :
    ∀ (l : List β) (acc : List Coord) (x : Coord), x ∈ l.foldl f acc →
      x ∈ acc ∨ ∃ b ∈ l, P b x := by
  intro l
  induction l with
  | nil => intro acc x hx; exact Or.inl hx
  | cons b bs ih =>
    intro acc x hx
    rw [List.foldl_cons] at hx
    rcases ih _ x hx with h | ⟨b2, hb2, hP⟩
    · rcases hstep acc b x h with h2 | h2
      · exact Or.inl h2
      · exact Or.inr ⟨b, List.mem_cons_self _ _, h2⟩
    · exact Or.inr ⟨b2, List.mem_cons_of_mem _ hb2, hP⟩

theorem foldl_length_le {β : Type} (f : List Coord → β → List Coord)
    (hstep : ∀ acc b, (f acc b).length ≤ acc.length + 1) :
    ∀ (l : List β) (acc : List Coord),
      (l.foldl f acc).length ≤ acc.length + l.length := by
  intro l
  induction l with
  | nil => intro acc; simp
  | cons b bs ih =>
    intro acc
    rw [List.foldl_cons]
    have h1 := ih (f acc b)
    have h2 := hstep acc b
    simp only [List.length_cons]
    omega

theorem foldl_mem_of_step {β : Type} [DecidableEq β]
    (f : List Coord → β → List Coord)
    (hmono : ∀ acc b x, x ∈ acc → x ∈ f acc b) :
    ∀ (l : List β) (b : β), b ∈ l → ∀ (x : Coord),
      (∀ acc, x ∈ f acc b) → ∀ acc, x ∈ l.foldl f acc := by
  intro l
  induction l with
  | nil => intro b hb; exact absurd hb (List.not_mem_nil _)
  | cons c cs ih =>
    intro b hb x hadd acc
    rw [List.foldl_cons]
    rcases List.mem_cons.mp hb with hbc | hbc
    · exact foldl_mono f hmono cs _ x (hbc ▸ hadd acc)
    · exact ih b hbc x hadd _

theorem isDestB_static {g : CityGrid} {n : Coord} (h : isDestB g n = true) :
    g.static n = StaticCell.dest := by
  cases hsn : g.static n <;> simp [isDestB, hsn] at h <;> rfl

theorem get_road_at_of_isDest {g : CityGrid} {n : Coord}
    (h : isDestB g n = true) : get_road_at g n = none := by
  rw [get_road_at, isDestB_static h]

theorem isObstacleB_of_isDest {g : CityGrid} {n : Coord}
    (h : isDestB g n = true) : isObstacleB g n = false := by
  rw [isObstacleB, isDestB_static h]

theorem hasValidPathB_of_isDest {g : CityGrid} {n : Coord}
    (h : isDestB g n = true) : hasValidPathB g n = true := by
  rw [hasValidPathB, isDestB_static h]

theorem destRoadAcc_none {g : CityGrid} {acc : List Coord} {n : Coord}
    {d : Direction} (hr : get_road_at g n = none) :
    destRoadAcc g acc n d = acc := by
  unfold destRoadAcc
  rw [hr]

theorem destRoadAcc_some {g : CityGrid} {acc : List Coord} {n : Coord}
    {d rd : Direction} (hr : get_road_at g n = some rd) :
    destRoadAcc g acc n d = if rd = d then acc ++ [n] else acc := by
  unfold destRoadAcc
  rw [hr]

theorem destRoadAcc_mem {g : CityGrid} {acc : List Coord} {n : Coord}
    {d : Direction} {x : Coord} (h : x ∈ destRoadAcc g acc n d) :
    x ∈ acc ∨ x = n := by
  cases hr : get_road_at g n with
  | none =>
    rw [destRoadAcc_none hr] at h
    exact Or.inl h
  | some rd =>
    rw [destRoadAcc_some hr] at h
    by_cases hrd : rd = d
    · rw [if_pos hrd] at h
      rcases List.mem_append.mp h with h2 | h2
      · exact Or.inl h2
      · exact Or.inr (List.mem_singleton.mp h2)
    · rw [if_neg hrd] at h
      exact Or.inl h

theorem destRoadAcc_mono {g : CityGrid} {acc : List Coord} {n : Coord}
    {d : Direction} {x : Coord} (h : x ∈ acc) : x ∈ destRoadAcc g acc n d := by
  cases hr : get_road_at g n with
  | none =>
    rw [destRoadAcc_none hr]
    exact h
  | some rd =>
    rw [destRoadAcc_some hr]
    by_cases hrd : rd = d
    · rw [if_pos hrd]
      exact List.mem_append_left _ h
    · rw [if_neg hrd]
      exact h

theorem destRoadAcc_length {g : CityGrid} {acc : List Coord} {n : Coord}
    {d : Direction} : (destRoadAcc g acc n d).length ≤ acc.length + 1 := by
  cases hr : get_road_at g n with
  | none =>
    rw [destRoadAcc_none hr]
    omega
  | some rd =>
    rw [destRoadAcc_some hr]
    by_cases hrd : rd = d
    · rw [if_pos hrd]
      simp
    · rw [if_neg hrd]
      omega

theorem destNeighborStep_mem {g : CityGrid} {occ : Coord → Bool} {c : Coord}
    {acc : List Coord} {d : Direction} {x : Coord}
    (h : x ∈ destNeighborStep g occ c acc d) :
    x ∈ acc ∨ (x = stepCell c d ∧ inBounds g (stepCell c d) = true) := by
  unfold destNeighborStep at h
  by_cases hb : inBounds g (stepCell c d) = true
  · rw [if_pos hb] at h
    split at h
    · exact Or.inl h
    · split at h
      · rcases List.mem_append.mp h with h2 | h2
        · rcases destRoadAcc_mem h2 with h3 | h3
          · exact Or.inl h3
          · exact Or.inr ⟨h3, hb⟩
        · exact Or.inr ⟨List.mem_singleton.mp h2, hb⟩
      · rcases destRoadAcc_mem h with h3 | h3
        · exact Or.inl h3
        · exact Or.inr ⟨h3, hb⟩
  · rw [if_neg hb] at h
    exact Or.inl h

theorem destNeighborStep_mono {g : CityGrid} {occ : Coord → Bool} {c : Coord}
    {acc : List Coord} {d : Direction} {x : Coord} (h : x ∈ acc) :
    x ∈ destNeighborStep g occ c acc d := by
  unfold destNeighborStep
  split
  · split
    · exact h
    · split
      · exact List.mem_append_left _ (destRoadAcc_mono h)
      · exact destRoadAcc_mono h
  · exact h

theorem destNeighborStep_length {g : CityGrid} {occ : Coord → Bool} {c : Coord}
    (acc : List Coord) (d : Direction) :
    (destNeighborStep g occ c acc d).length ≤ acc.length + 1 := by
  unfold destNeighborStep
  by_cases hb : inBounds g (stepCell c d) = true
  · rw [if_pos hb]
    by_cases hoc : (occ (stepCell c d) || isObstacleB g (stepCell c d)) = true
    · rw [if_pos hoc]
      omega
    · rw [if_neg hoc]
      by_cases hD : isDestB g (stepCell c d) = true
      · rw [if_pos hD]
        unfold destRoadAcc
        rw [get_road_at_of_isDest hD]
        simp
      · rw [if_neg hD]
        exact destRoadAcc_length
  · rw [if_neg hb]
    omega

theorem lightNeighbors_none {g : CityGrid} {occ : Coord → Bool} {c : Coord} :
    lightNeighbors g occ c none = [] := rfl

theorem lightNeighbors_some {g : CityGrid} {occ : Coord → Bool} {c : Coord}
    {d : Direction} :
    lightNeighbors g occ c (some d) =
      if inBounds g (stepCell c d) then
        if occ (stepCell c d) || isObstacleB g (stepCell c d) then []
        else if hasValidPathB g (stepCell c d) then [stepCell c d] else []
      else [] := rfl

theorem lightNeighbors_mem {g : CityGrid} {occ : Coord → Bool} {c : Coord}
    {r : Option Direction} {x : Coord} (h : x ∈ lightNeighbors g occ c r) :
    ∃ d : Direction, r = some d ∧ x = stepCell c d ∧
      inBounds g (stepCell c d) = true := by
  cases r with
  | none =>
    rw [lightNeighbors_none] at h
    exact absurd h (List.not_mem_nil _)
  | some d =>
    rw [lightNeighbors_some] at h
    refine ⟨d, rfl, ?_⟩
    by_cases hb : inBounds g (stepCell c d) = true
    · rw [if_pos hb] at h
      split at h
      · exact absurd h (List.not_mem_nil _)
      · split at h
        · exact ⟨List.mem_singleton.mp h, hb⟩
        · exact absurd h (List.not_mem_nil _)
    · rw [if_neg hb] at h
      exact absurd h (List.not_mem_nil _)

theorem lightNeighbors_length {g : CityGrid} {occ : Coord → Bool} {c : Coord}
    (r : Option Direction) : (lightNeighbors g occ c r).length ≤ 1 := by
  cases r with
  | none =>
    rw [lightNeighbors_none]
    simp
  | some d =>
    rw [lightNeighbors_some]
    split
    · split
      · simp
      · split
        · simp
        · simp
    · simp

theorem roadForward_mem {g : CityGrid} {occ : Coord → Bool} {c : Coord}
    {d : Direction} {x : Coord} (h : x ∈ roadForward g occ c d) :
    x = stepCell c d ∧ inBounds g (stepCell c d) = true := by
  unfold roadForward at h
  by_cases hb : inBounds g (stepCell c d) = true
  · rw [if_pos hb] at h
    split at h
    · exact absurd h (List.not_mem_nil _)
    · split at h
      · exact ⟨List.mem_singleton.mp h, hb⟩
      · exact absurd h (List.not_mem_nil _)
  · rw [if_neg hb] at h
    exact absurd h (List.not_mem_nil _)

theorem roadForward_length {g : CityGrid} {occ : Coord → Bool} {c : Coord}
    (d : Direction) : (roadForward g occ c d).length ≤ 1 := by
  unfold roadForward
  split
  · split
    · simp
    · split
      · simp
      · simp
  · simp

theorem turnAcc1_mem {g : CityGrid} {acc : List Coord} {n : Coord} {x : Coord}
    (h : x ∈ turnAcc1 g acc n) : x ∈ acc ∨ x = n := by
  unfold turnAcc1 at h
  split at h
  · rcases List.mem_append.mp h with h2 | h2
    · exact Or.inl h2
    · exact Or.inr (List.mem_singleton.mp h2)
  · exact Or.inl h

theorem turnAcc1_mono {g : CityGrid} {acc : List Coord} {n : Coord} {x : Coord}
    (h : x ∈ acc) : x ∈ turnAcc1 g acc n := by
  unfold turnAcc1
  split
  · exact List.mem_append_left _ h
  · exact h

theorem turnAcc1_self {g : CityGrid} {acc : List Coord} {n : Coord}
    (hD : isDestB g n = true) : n ∈ turnAcc1 g acc n := by
  unfold turnAcc1
  by_cases hmem : n ∈ acc
  · split
    · exact List.mem_append_left _ hmem
    · exact hmem
  · rw [if_pos ⟨hD, hmem⟩]
    exact List.mem_append_right _ (List.mem_singleton.mpr rfl)

theorem turnPush_mem {acc1 : List Coord} {n : Coord} {x : Coord}
    (h : x ∈ turnPush acc1 n) : x ∈ acc1 ∨ x = n := by
  unfold turnPush at h
  split at h
  · rcases List.mem_append.mp h with h2 | h2
    · exact Or.inl h2
    · exact Or.inr (List.mem_singleton.mp h2)
  · exact Or.inl h

theorem turnPush_mono {acc1 : List Coord} {n : Coord} {x : Coord}
    (h : x ∈ acc1) : x ∈ turnPush acc1 n := by
  unfold turnPush
  split
  · exact List.mem_append_left _ h
  · exact h

theorem turnPush_turnAcc1_length {g : CityGrid} {acc : List Coord} {n : Coord} :
    (turnPush (turnAcc1 g acc n) n).length ≤ acc.length + 1 := by
  unfold turnAcc1
  by_cases hc : isDestB g n = true ∧ n ∉ acc
  · rw [if_pos hc]
    unfold turnPush
    rw [if_neg (by simp)]
    simp
  · rw [if_neg hc]
    unfold turnPush
    split
    · simp
    · omega

theorem turnRoadCase_none {g : CityGrid} {acc : List Coord} {n : Coord}
    {d dn : Direction} : turnRoadCase g acc n d dn none = turnAcc1 g acc n :=
  rfl

theorem turnRoadCase_some {g : CityGrid} {acc : List Coord} {n : Coord}
    {d dn rd : Direction} :
    turnRoadCase g acc n d dn (some rd) =
      if rd = d then turnPush (turnAcc1 g acc n) n
      else if rd ≠ dn.opposite then turnPush (turnAcc1 g acc n) n
      else turnAcc1 g acc n :=
  rfl

theorem turnRoadCase_mem {g : CityGrid} {acc : List Coord} {n : Coord}
    {d dn : Direction} {ro : Option Direction} {x : Coord}
    (h : x ∈ turnRoadCase g acc n d dn ro) : x ∈ acc ∨ x = n := by
  have hsub : x ∈ turnAcc1 g acc n ∨ x = n → x ∈ acc ∨ x = n := by
    intro h2
    rcases h2 with h3 | h3
    · exact turnAcc1_mem h3
    · exact Or.inr h3
  cases ro with
  | none =>
    rw [turnRoadCase_none] at h
    exact hsub (Or.inl h)
  | some rd =>
    rw [turnRoadCase_some] at h
    split at h
    · exact hsub (turnPush_mem h)
    · split at h
      · exact hsub (turnPush_mem h)
      · exact hsub (Or.inl h)

theorem turnRoadCase_mono {g : CityGrid} {acc : List Coord} {n : Coord}
    {d dn : Direction} {ro : Option Direction} {x : Coord}
    (h : x ∈ acc) : x ∈ turnRoadCase g acc n d dn ro := by
  cases ro with
  | none =>
    rw [turnRoadCase_none]
    exact turnAcc1_mono h
  | some rd =>
    rw [turnRoadCase_some]
    split
    · exact turnPush_mono (turnAcc1_mono h)
    · split
      · exact turnPush_mono (turnAcc1_mono h)
      · exact turnAcc1_mono h

theorem turnAcc1_length {g : CityGrid} {acc : List Coord} {n : Coord} :
    (turnAcc1 g acc n).length ≤ acc.length + 1 := by
  unfold turnAcc1
  split
  · simp
  · omega

theorem turnRoadCase_length {g : CityGrid} {acc : List Coord} {n : Coord}
    {d dn : Direction} {ro : Option Direction} :
    (turnRoadCase g acc n d dn ro).length ≤ acc.length + 1 := by
  cases ro with
  | none =>
    rw [turnRoadCase_none]
    exact turnAcc1_length
  | some rd =>
    rw [turnRoadCase_some]
    split
    · exact turnPush_turnAcc1_length
    · split
      · exact turnPush_turnAcc1_length
      · exact turnAcc1_length

theorem roadTurnStep_mem {g : CityGrid} {occ : Coord → Bool} {c : Coord}
    {d : Direction} {acc : List Coord} {dn : Direction} {x : Coord}
    (h : x ∈ roadTurnStep g occ c d acc dn) :
    x ∈ acc ∨ (x = stepCell c dn ∧ inBounds g (stepCell c dn) = true) := by
  unfold roadTurnStep at h
  by_cases hdd : dn = d
  · rw [if_pos hdd] at h
    exact Or.inl h
  · rw [if_neg hdd] at h
    by_cases hb : inBounds g (stepCell c dn) = true
    · rw [if_pos hb] at h
      split at h
      · exact Or.inl h
      · rcases turnRoadCase_mem h with h2 | h2
        · exact Or.inl h2
        · exact Or.inr ⟨h2, hb⟩
    · rw [if_neg hb] at h
      exact Or.inl h

theorem roadTurnStep_mono {g : CityGrid} {occ : Coord → Bool} {c : Coord}
    {d : Direction} {acc : List Coord} {dn : Direction} {x : Coord}
    (h : x ∈ acc) : x ∈ roadTurnStep g occ c d acc dn := by
  unfold roadTurnStep
  by_cases hdd : dn = d
  · rw [if_pos hdd]
    exact h
  · rw [if_neg hdd]
    split
    · split
      · exact h
      · exact turnRoadCase_mono h
    · exact h

theorem roadTurnStep_length {g : CityGrid} {occ : Coord → Bool} {c : Coord}
    {d : Direction} (acc : List Coord) (dn : Direction) :
    (roadTurnStep g occ c d acc dn).length ≤ acc.length + 1 := by
  unfold roadTurnStep
  by_cases hdd : dn = d
  · rw [if_pos hdd]
    omega
  · rw [if_neg hdd]
    split
    · split
      · omega
      · exact turnRoadCase_length
    · omega

/-- Every valid neighbor is a unit cardinal step landing inside the grid. -/
theorem mem_valid_neighbors {g : CityGrid} {occ : Coord → Bool} {c : Coord}
    {r : Option Direction} {x : Coord} (h : x ∈ get_valid_neighbors g occ c r) :
    ∃ d : Direction, x = stepCell c d ∧ inBounds g x = true := by
  unfold get_valid_neighbors at h
  split at h
  · rcases foldl_mem_cases
      (fun d y => y = stepCell c d ∧ inBounds g (stepCell c d) = true)
      (destNeighborStep g occ c)
      (fun acc b y hy => destNeighborStep_mem hy) dirOrder [] x h with
      h2 | ⟨d, -, h2, h3⟩
    · exact absurd h2 (List.not_mem_nil _)
    · exact ⟨d, h2, h2 ▸ h3⟩
  · split at h
    · obtain ⟨d, -, h2, h3⟩ := lightNeighbors_mem h
      exact ⟨d, h2, h2 ▸ h3⟩
    · split at h
      · next d =>
        rcases foldl_mem_cases
          (fun dn y => y = stepCell c dn ∧ inBounds g (stepCell c dn) = true)
          (roadTurnStep g occ c d)
          (fun acc b y hy => roadTurnStep_mem hy) dirOrder _ x h with
          h2 | ⟨dn, -, h2, h3⟩
        · obtain ⟨h3, h4⟩ := roadForward_mem h2
          exact ⟨d, h3, h3 ▸ h4⟩
        · exact ⟨dn, h2, h2 ▸ h3⟩
      · exact absurd h (List.not_mem_nil _)

/-- The branching of the legality graph is at most five. -/
theorem valid_neighbors_length (g : CityGrid) (occ : Coord → Bool) (c : Coord)
    (r : Option Direction) : (get_valid_neighbors g occ c r).length ≤ 5 := by
  unfold get_valid_neighbors
  split
  · have h1 := foldl_length_le (destNeighborStep g occ c)
      (fun acc d => destNeighborStep_length acc d) dirOrder []
    have h3 : dirOrder.length = 4 := rfl
    simp only [List.length_nil] at h1
    omega
  · split
    · exact Nat.le_trans (lightNeighbors_length r) (by omega)
    · split
      · next d =>
        have h1 := foldl_length_le (roadTurnStep g occ c d)
          (fun acc dn => roadTurnStep_length acc dn) dirOrder
          (roadForward g occ c d)
        have h2 := @roadForward_length g occ c d
        have h3 : dirOrder.length = 4 := rfl
        omega
      · simp

/-- Moving one cardinal step changes the Manhattan heuristic by at most one,
so the heuristic is consistent for the unit-cost legality graph. -/
theorem heuristic_step (d : Direction) (c t : Coord) :
    heuristic c t ≤ heuristic (stepCell c d) t + 1 := by
  cases d <;> (unfold heuristic stepCell Direction.offset; dsimp; omega)

/-- Consistency of the Manhattan heuristic on the grid legality graph. -/
theorem gridSucc_consistent (g : CityGrid) (occ : Coord → Bool) (t : Coord) :
    ∀ a b, b ∈ gridSucc g occ a → heuristic a t ≤ heuristic b t + 1 := by
  intro a b hb
  obtain ⟨d, hbd, -⟩ := mem_valid_neighbors hb
  rw [hbd]
  exact heuristic_step d a t

theorem inBounds_iff_mem {g : CityGrid} {c : Coord} :
    inBounds g c = true ↔ c ∈ gridIcc g := by
  unfold inBounds gridIcc
  rw [Finset.mem_Icc, Prod.le_def, Prod.le_def]
  dsimp
  simp only [decide_eq_true_eq]
  omega

theorem gridIcc_card (g : CityGrid) : (gridIcc g).card = g.width * g.height := by
  unfold gridIcc
  rw [Finset.Icc_prod_def]
  dsimp
  rw [Finset.card_product, Int.card_Icc, Int.card_Icc]
  have h1 : ((g.width : Int) - 1 + 1 - 0).toNat = g.width := by omega
  have h2 : ((g.height : Int) - 1 + 1 - 0).toNat = g.height := by omega
  rw [h1, h2]

/-- Termination of the pathfinder on every grid, with the fuel `stdFuel` that
is linear in the grid area: the embedded `find_path_to_destination` never
exhausts its loop bound. -/
theorem find_path_total (g : CityGrid) (occ : Coord → Bool) (s t : Coord) :
    astar (gridSucc g occ) (fun c => heuristic c t) s t (stdFuel g) ≠ none := by
  apply astar_total (insert s (gridIcc g)) 5
  · intro a b hb
    obtain ⟨-, -, hbnds⟩ := mem_valid_neighbors hb
    exact Finset.mem_insert_of_mem (inBounds_iff_mem.mp hbnds)
  · intro a
    exact valid_neighbors_length g occ a (get_road_at g a)
  · exact Finset.mem_insert_self _ _
  · have h1 : (insert s (gridIcc g)).card ≤ (gridIcc g).card + 1 :=
      Finset.card_insert_le _ _
    rw [gridIcc_card] at h1
    unfold stdFuel
    omega

/-- Full specification of the embedded pathfinder: it either reports (with an
empty path) that the destination is unreachable in the legality graph, or
returns an optimal walk to the destination. -/
theorem find_path_spec (g : CityGrid) (occ : Coord → Bool) (s t : Coord) :
    (find_path_to_destination g occ s t = [] ∧ ¬ Reach (gridSucc g occ) s t) ∨
    (WalkTo (gridSucc g occ) s (find_path_to_destination g occ s t) t ∧
      IsMinWalkLen (gridSucc g occ) s t
        (find_path_to_destination g occ s t).length) := by
  cases hps : astar (gridSucc g occ) (fun c => heuristic c t) s t (stdFuel g) with
  | none => exact absurd hps (find_path_total g occ s t)
  | some ps =>
    have heq : find_path_to_destination g occ s t = ps := by
      unfold find_path_to_destination
      rw [hps]
      rfl
    rw [heq]
    exact astar_spec (gridSucc_consistent g occ t) t (stdFuel g) ps hps

/-- Unfolding of `get_valid_neighbors` on a Destination cell. -/
theorem get_valid_neighbors_dest {g : CityGrid} {occ : Coord → Bool} {c : Coord}
    (r : Option Direction) (hc : isDestB g c = true) :
    get_valid_neighbors g occ c r = dirOrder.foldl (destNeighborStep g occ c) [] := by
  unfold get_valid_neighbors
  rw [if_pos hc]

/-- Unfolding of `get_valid_neighbors` on a plain road cell. -/
theorem get_valid_neighbors_road {g : CityGrid} {occ : Coord → Bool} {c : Coord}
    {rd : Direction} (h1 : isDestB g c = false) (h2 : isLightB g c = false) :
    get_valid_neighbors g occ c (some rd) =
      dirOrder.foldl (roadTurnStep g occ c rd) (roadForward g occ c rd) := by
  unfold get_valid_neighbors
  rw [h1, h2]
  simp

theorem mem_dirOrder (d : Direction) : d ∈ dirOrder := by
  cases d <;> simp [dirOrder]

/-- From a Destination cell, an adjacent in-bounds Destination free of cars is
always a valid neighbor. -/
theorem dest_from_dest {g : CityGrid} {occ : Coord → Bool} {c : Coord}
    {d : Direction} (hc : isDestB g c = true) (r : Option Direction)
    (hb : inBounds g (stepCell c d) = true)
    (hocc : occ (stepCell c d) = false)
    (hD : isDestB g (stepCell c d) = true) :
    stepCell c d ∈ get_valid_neighbors g occ c r := by
  rw [get_valid_neighbors_dest r hc]
  apply foldl_mem_of_step (destNeighborStep g occ c)
    (fun acc b x hx => destNeighborStep_mono hx) dirOrder d (mem_dirOrder d)
  intro acc
  unfold destNeighborStep
  rw [if_pos hb]
  rw [if_neg (by rw [hocc, isObstacleB_of_isDest hD]; simp)]
  rw [if_pos hD]
  exact List.mem_append_right _ (List.mem_singleton.mpr rfl)

/-- From a plain road cell, an adjacent in-bounds Destination free of cars is
always a valid neighbor, in every direction. -/
theorem dest_from_road {g : CityGrid} {occ : Coord → Bool} {c : Coord}
    {rd : Direction} {d : Direction} (hc : g.static c = StaticCell.road rd)
    (hb : inBounds g (stepCell c d) = true)
    (hocc : occ (stepCell c d) = false)
    (hD : isDestB g (stepCell c d) = true) :
    stepCell c d ∈ get_valid_neighbors g occ c (get_road_at g c) := by
  have h1 : isDestB g c = false := by
    unfold isDestB
    rw [hc]
  have h2 : isLightB g c = false := by
    unfold isLightB
    rw [hc]
  have h3 : get_road_at g c = some rd := by
    unfold get_road_at
    rw [hc]
  rw [h3, get_valid_neighbors_road h1 h2]
  have hobst : (isObstacleB g (stepCell c d) || occ (stepCell c d)) = false := by
    rw [hocc, isObstacleB_of_isDest hD]
    simp
  by_cases hdd : d = rd
  · apply foldl_mono (roadTurnStep g occ c rd)
      (fun acc b x hx => roadTurnStep_mono hx)
    unfold roadForward
    rw [← hdd, if_pos hb, if_neg (by rw [hobst]; simp),
      if_pos (hasValidPathB_of_isDest hD)]
    exact List.mem_singleton.mpr rfl
  · apply foldl_mem_of_step (roadTurnStep g occ c rd)
      (fun acc b x hx => roadTurnStep_mono hx) dirOrder d (mem_dirOrder d)
    intro acc
    unfold roadTurnStep
    rw [if_neg hdd, if_pos hb, if_neg (by rw [hobst]; simp),
      get_road_at_of_isDest hD, turnRoadCase_none]
    exact turnAcc1_self hD

/-- Walks cannot leave a cell with no valid neighbors. -/
theorem reach_of_no_succ {α : Type} {succ : α → List α} {s t : α}
    (h : succ s = []) (hr : Reach succ s t) : t = s := by
  obtain ⟨p, hw⟩ := hr
  cases p with
  | nil =>
    obtain ⟨-, hl⟩ := hw
    exact hl.symm ▸ rfl
  | cons y p2 =>
    obtain ⟨hy, -⟩ := walkTo_cons.mp hw
    rw [h] at hy
    exact absurd hy (List.not_mem_nil _)

end GridLemmas

/-! ### Safety of the agent step functions

A car commits a move only to a cell it has just checked to be free of other
cars: each branch of `Car.step` / `drunkDriver.step` either keeps the
position or lands on a cell where the occupancy query answered `false`. -/

section CarStepLemmas

theorem can_move_forward_snd (g : CityGrid) (lights occ : Coord → Bool)
    (self : CarState) :
    ∃ w, (can_move_forward g lights occ self).2 =
      { self with waitingAtLight := w } := by
  obtain ⟨p1, p2, p3, path, p5, p6, p7, p8, p9, p10, p11, p12⟩ := self
  cases path with
  | nil => exact ⟨p11, rfl⟩
  | cons next rest =>
    simp only [can_move_forward]
    split
    · exact ⟨true, rfl⟩
    · split
      · exact ⟨false, rfl⟩
      · exact ⟨false, rfl⟩

theorem can_move_forward_true {g : CityGrid} {lights occ : Coord → Bool}
    {self : CarState} (h : (can_move_forward g lights occ self).1 = true) :
    ∃ next rest, self.path = next :: rest ∧ occ next = false := by
  obtain ⟨p1, p2, p3, path, p5, p6, p7, p8, p9, p10, p11, p12⟩ := self
  cases path with
  | nil => exact absurd h (by simp [can_move_forward])
  | cons next rest =>
    refine ⟨next, rest, rfl, ?_⟩
    simp only [can_move_forward] at h
    split at h
    · exact absurd h (by simp)
    · split at h
      · exact absurd h (by simp)
      · next h2 =>
        simp only [Bool.or_eq_true, decide_eq_true_eq, not_or] at h2
        cases hocc : occ next with
        | true => exact absurd hocc h2.1
        | false => rfl

theorem continue_none {g : CityGrid} (lights occ : Coord → Bool)
    {self : CarState} (h : get_road_at g self.pos = none) :
    continue_in_road_direction g lights occ self = self := by
  unfold continue_in_road_direction
  rw [h]

theorem continue_some {g : CityGrid} (lights occ : Coord → Bool)
    {self : CarState} {d : Direction} (h : get_road_at g self.pos = some d) :
    continue_in_road_direction g lights occ self =
      (if inBounds g (stepCell self.pos d) then
        if isObstacleB g (stepCell self.pos d) || occ (stepCell self.pos d) then
          self
        else if isLightB g self.pos && !(lights self.pos) then
          { self with waitingAtLight := true }
        else
          { self with
            waitingAtLight := false,
            pos := stepCell self.pos d,
            dir := d }
      else self) := by
  unfold continue_in_road_direction
  rw [h]

theorem continue_shape (g : CityGrid) (lights occ : Coord → Bool)
    (self : CarState) :
    (∃ w, continue_in_road_direction g lights occ self =
      { self with waitingAtLight := w }) ∨
    (∃ d, get_road_at g self.pos = some d ∧
      occ (stepCell self.pos d) = false ∧
      continue_in_road_direction g lights occ self =
        { self with
            waitingAtLight := false
            pos := stepCell self.pos d
            dir := d }) := by
  cases hrd : get_road_at g self.pos with
  | none =>
    rw [continue_none lights occ hrd]
    exact Or.inl ⟨self.waitingAtLight, rfl⟩
  | some d =>
    rw [continue_some lights occ hrd]
    by_cases hb : inBounds g (stepCell self.pos d) = true
    · rw [if_pos hb]
      by_cases hoc : (isObstacleB g (stepCell self.pos d) ||
          occ (stepCell self.pos d)) = true
      · rw [if_pos hoc]
        exact Or.inl ⟨self.waitingAtLight, rfl⟩
      · rw [if_neg hoc]
        simp only [Bool.or_eq_true, not_or] at hoc
        split
        · exact Or.inl ⟨true, rfl⟩
        · refine Or.inr ⟨d, rfl, ?_, rfl⟩
          cases hx : occ (stepCell self.pos d) with
          | true => exact absurd hx hoc.2
          | false => rfl
    · rw [if_neg hb]
      exact Or.inl ⟨self.waitingAtLight, rfl⟩

theorem movePath2_safe (g : CityGrid) (lights occ : Coord → Bool) (o : Oracle)
    (self : CarState) :
    ((movePath2 g lights occ o self).pos = self.pos ∨
      occ (movePath2 g lights occ o self).pos = false) ∧
    (movePath2 g lights occ o self).active = self.active := by
  unfold movePath2
  obtain ⟨w, hw⟩ := can_move_forward_snd g lights occ self
  by_cases hc : (can_move_forward g lights occ self).1 = true
  · rw [if_pos hc]
    obtain ⟨next, rest, hpath, hocc⟩ := can_move_forward_true hc
    rw [hw]
    unfold movePath3
    simp only [hpath]
    rw [if_neg (by simp [hocc])]
    exact ⟨Or.inr hocc, rfl⟩
  · rw [if_neg hc]
    split
    · rcases continue_shape g lights occ (can_move_forward g lights occ self).2
        with ⟨w2, hw2⟩ | ⟨d, _, hoccd, hw2⟩
      · rw [hw2, hw]
        exact ⟨Or.inl rfl, rfl⟩
      · rw [hw2, hw]
        refine ⟨Or.inr ?_, rfl⟩
        simpa [hw] using hoccd
    · rw [hw]
      exact ⟨Or.inl rfl, rfl⟩

theorem move_along_path_safe (g : CityGrid) (lights occ : Coord → Bool)
    (o : Oracle) (self : CarState) :
    ((move_along_path g lights occ o self).pos = self.pos ∨
      occ (move_along_path g lights occ o self).pos = false) ∧
    (move_along_path g lights occ o self).active = self.active := by
  unfold move_along_path
  split
  · exact movePath2_safe g lights occ o _
  · exact movePath2_safe g lights occ o self

theorem carStepNormal_safe (g : CityGrid) (lights occ : Coord → Bool)
    (o : Oracle) (self : CarState) :
    ((carStepNormal g lights occ o self).pos = self.pos ∨
      occ (carStepNormal g lights occ o self).pos = false) ∧
    ((carStepNormal g lights occ o self).active = true →
      self.active = true) := by
  unfold carStepNormal
  split
  · split
    · exact ⟨Or.inl rfl, by simp⟩
    · obtain ⟨h1, h2⟩ := move_along_path_safe g lights occ o self
      exact ⟨h1, fun h => h2 ▸ h⟩
  · split
    · exact ⟨Or.inl rfl, fun h => h⟩
    · exact ⟨Or.inl rfl, fun h => h⟩

theorem drunkTryMove_safe (g : CityGrid) (occ : Coord → Bool) (o : Oracle)
    (self : CarState) (next : Coord) (ndir : Direction) :
    ((drunkTryMove g occ o self next ndir).pos = self.pos ∨
      occ (drunkTryMove g occ o self next ndir).pos = false) ∧
    (drunkTryMove g occ o self next ndir).active = self.active := by
  unfold drunkTryMove
  by_cases h1 : isObstacleB g next = true
  · rw [if_pos h1]
    split
    · exact ⟨Or.inl rfl, rfl⟩
    · exact ⟨Or.inl rfl, rfl⟩
  · rw [if_neg h1]
    by_cases h2 : occ next = true
    · rw [if_pos h2]
      split
      · exact ⟨Or.inl rfl, rfl⟩
      · exact ⟨Or.inl rfl, rfl⟩
    · rw [if_neg h2]
      exact ⟨Or.inr (by simpa using h2), rfl⟩

theorem apply_zigzag_roll_false {o : Oracle} (g : CityGrid)
    (occ : Coord → Bool) (self : CarState) (intended : Coord)
    (h : o.zigzagRoll = false) :
    apply_zigzag g occ o self intended = (self, intended) := by
  unfold apply_zigzag
  rw [h]
  rfl

theorem apply_zigzag_road_none {g : CityGrid} {o : Oracle} {self : CarState}
    (occ : Coord → Bool) (intended : Coord) (h1 : o.zigzagRoll = true)
    (h2 : get_road_at g self.pos = none) :
    apply_zigzag g occ o self intended = (self, intended) := by
  unfold apply_zigzag
  rw [h1, h2]
  rfl

theorem apply_zigzag_road_some {g : CityGrid} {o : Oracle} {self : CarState}
    {rd : Direction} (occ : Coord → Bool) (intended : Coord)
    (h1 : o.zigzagRoll = true) (h2 : get_road_at g self.pos = some rd) :
    apply_zigzag g occ o self intended =
      (if inBounds g (zigzagTarget rd self.zigzagLeft intended)
          && !(isObstacleB g (zigzagTarget rd self.zigzagLeft intended))
          && !(occ (zigzagTarget rd self.zigzagLeft intended)) then
        ({ self with zigzagLeft := !self.zigzagLeft },
          zigzagTarget rd self.zigzagLeft intended)
      else ({ self with zigzagLeft := !self.zigzagLeft }, intended)) := by
  unfold apply_zigzag
  rw [h1, h2]
  rfl

theorem apply_zigzag_snd_free (g : CityGrid) (occ : Coord → Bool) (o : Oracle)
    (self : CarState) (intended : Coord) (h : occ intended = false) :
    occ (apply_zigzag g occ o self intended).2 = false := by
  cases hr : o.zigzagRoll with
  | false => rw [apply_zigzag_roll_false g occ self intended hr]; exact h
  | true =>
    cases hrd : get_road_at g self.pos with
    | none => rw [apply_zigzag_road_none occ intended hr hrd]; exact h
    | some rd =>
      rw [apply_zigzag_road_some occ intended hr hrd]
      split
      · next hz =>
        simp only [Bool.and_eq_true, Bool.not_eq_true'] at hz
        exact hz.2
      · exact h

theorem apply_zigzag_fst_active (g : CityGrid) (occ : Coord → Bool)
    (o : Oracle) (self : CarState) (intended : Coord) :
    (apply_zigzag g occ o self intended).1.active = self.active := by
  cases hr : o.zigzagRoll with
  | false => rw [apply_zigzag_roll_false g occ self intended hr]
  | true =>
    cases hrd : get_road_at g self.pos with
    | none => rw [apply_zigzag_road_none occ intended hr hrd]
    | some rd =>
      rw [apply_zigzag_road_some occ intended hr hrd]
      split
      · rfl
      · rfl

theorem drunkCommitZigzag_safe (g : CityGrid) (occ : Coord → Bool)
    (o : Oracle) (self : CarState) (next : Coord) (h : occ next = false) :
    occ (drunkCommitZigzag g occ o self next).pos = false ∧
    (drunkCommitZigzag g occ o self next).active = self.active := by
  constructor
  · show occ (apply_zigzag g occ o self next).2 = false
    exact apply_zigzag_snd_free g occ o self next h
  · show (apply_zigzag g occ o self next).1.active = self.active
    exact apply_zigzag_fst_active g occ o self next

theorem drunkFollowPath2_safe (g : CityGrid) (occ : Coord → Bool) (o : Oracle)
    (self : CarState) :
    ((drunkFollowPath2 g occ o self).pos = self.pos ∨
      occ (drunkFollowPath2 g occ o self).pos = false) ∧
    (drunkFollowPath2 g occ o self).active = self.active := by
  obtain ⟨p1, p2, p3, path, p5, p6, p7, p8, p9, p10, p11, p12⟩ := self
  cases path with
  | nil => exact ⟨Or.inl rfl, rfl⟩
  | cons next rest =>
    simp only [drunkFollowPath2]
    by_cases h1 : isObstacleB g next = true
    · rw [if_pos h1]
      split
      · exact ⟨Or.inl rfl, rfl⟩
      · exact ⟨Or.inl rfl, rfl⟩
    · rw [if_neg h1]
      by_cases h2 : occ next = true
      · rw [if_pos h2]
        split
        · exact ⟨Or.inl rfl, rfl⟩
        · exact ⟨Or.inl rfl, rfl⟩
      · rw [if_neg h2]
        have hocc : occ next = false := by simpa using h2
        obtain ⟨hfree, hact⟩ := drunkCommitZigzag_safe g occ o
          { pos := p1, dest := p2, dir := p3, path := rest, kind := p5,
            crashed := p6, crashRecoverySteps := p7,
            randomStepsRemaining := p8, zigzagLeft := p9,
            reachedDestination := p10, waitingAtLight := p11,
            active := p12 } next hocc
        exact ⟨Or.inr hfree, hact⟩

theorem can_move_forward_drunk_snd (g : CityGrid) (lights occ : Coord → Bool)
    (o : Oracle) (self : CarState) :
    ∃ w, (can_move_forward_drunk g lights occ o self).2 =
      { self with waitingAtLight := w } := by
  obtain ⟨p1, p2, p3, path, p5, p6, p7, p8, p9, p10, p11, p12⟩ := self
  cases path with
  | nil => exact ⟨p11, rfl⟩
  | cons next rest =>
    simp only [can_move_forward_drunk]
    split
    · exact ⟨true, rfl⟩
    · split
      · exact ⟨false, rfl⟩
      · exact ⟨false, rfl⟩

theorem drunkFollowPath_safe (g : CityGrid) (lights occ : Coord → Bool)
    (o : Oracle) (self : CarState) :
    ((drunkFollowPath g lights occ o self).pos = self.pos ∨
      occ (drunkFollowPath g lights occ o self).pos = false) ∧
    (drunkFollowPath g lights occ o self).active = self.active := by
  obtain ⟨w, hw⟩ := can_move_forward_drunk_snd g lights occ o self
  unfold drunkFollowPath
  split
  · rw [hw]
    exact drunkFollowPath2_safe g occ o _
  · rw [hw]
    exact ⟨Or.inl rfl, rfl⟩

theorem drunkRandomWindow_safe (g : CityGrid) (occ : Coord → Bool)
    (o : Oracle) (self : CarState) :
    ((drunkRandomWindow g occ o self).pos = self.pos ∨
      occ (drunkRandomWindow g occ o self).pos = false) ∧
    (drunkRandomWindow g occ o self).active = self.active := by
  unfold drunkRandomWindow
  cases get_random_neighbor g o self with
  | none => exact ⟨Or.inl rfl, rfl⟩
  | some p =>
    obtain ⟨next, ndir⟩ := p
    exact drunkTryMove_safe g occ o
      { self with randomStepsRemaining := self.randomStepsRemaining - 1 }
      next ndir

theorem drunkStep_safe (g : CityGrid) (lights occ : Coord → Bool) (o : Oracle)
    (self : CarState) :
    ((drunkStep g lights occ o self).pos = self.pos ∨
      occ (drunkStep g lights occ o self).pos = false) ∧
    ((drunkStep g lights occ o self).active = true → self.active = true) := by
  unfold drunkStep
  by_cases hrec : self.crashRecoverySteps = 0
  · rw [if_pos hrec]
    by_cases hdest : self.pos = self.dest
    · rw [if_pos hdest]
      exact ⟨Or.inl rfl, fun h => Bool.noConfusion h⟩
    · rw [if_neg hdest]
      by_cases hwin : 0 < self.randomStepsRemaining
      · rw [if_pos hwin]
        obtain ⟨h1, h2⟩ := drunkRandomWindow_safe g occ o self
        exact ⟨h1, fun h => h2 ▸ h⟩
      · rw [if_neg hwin]
        by_cases hf : o.forgetRoll = true
        · rw [if_pos hf]
          exact ⟨Or.inl rfl, fun h => h⟩
        · rw [if_neg hf]
          by_cases hw : o.wrongWayRoll = true
          · rw [if_pos hw]
            cases get_wrong_way_neighbor g self with
            | none => exact ⟨Or.inl rfl, fun h => h⟩
            | some p =>
              obtain ⟨next, ndir⟩ := p
              obtain ⟨h1, h2⟩ := drunkTryMove_safe g occ o self next ndir
              exact ⟨h1, fun h => h2 ▸ h⟩
          · rw [if_neg hw]
            by_cases hm : o.randomMoveRoll = true
            · rw [if_pos hm]
              cases get_random_neighbor g o self with
              | none => exact ⟨Or.inl rfl, fun h => h⟩
              | some p =>
                obtain ⟨next, ndir⟩ := p
                obtain ⟨h1, h2⟩ := drunkTryMove_safe g occ o self next ndir
                exact ⟨h1, fun h => h2 ▸ h⟩
            · rw [if_neg hm]
              by_cases hp : self.path = []
              · rw [if_pos hp]
                obtain ⟨h1, h2⟩ := drunkFollowPath_safe g lights occ o
                  { self with path :=
                    find_path_to_destination g occ self.pos self.dest }
                exact ⟨h1, fun h => h2 ▸ h⟩
              · rw [if_neg hp]
                obtain ⟨h1, h2⟩ := drunkFollowPath_safe g lights occ o self
                exact ⟨h1, fun h => h2 ▸ h⟩
  · rw [if_neg hrec]
    split
    · exact ⟨Or.inl rfl, fun h => h⟩
    · exact ⟨Or.inl rfl, fun h => h⟩

theorem carStep_safe (g : CityGrid) (lights occ : Coord → Bool) (o : Oracle)
    (self : CarState) :
    ((carStep g lights occ o self).pos = self.pos ∨
      occ (carStep g lights occ o self).pos = false) ∧
    ((carStep g lights occ o self).active = true → self.active = true) := by
  obtain ⟨p1, p2, p3, p4, kind, p6, p7, p8, p9, p10, p11, p12⟩ := self
  cases kind with
  | normal => exact carStepNormal_safe g lights occ o _
  | drunk => exact drunkStep_safe g lights occ o _

theorem occExcept_false {cars : List CarState} {i : Nat} {c : Coord}
    (h : occExcept cars i c = false) :
    ∀ j, ∀ hj : j < cars.length, j ≠ i → cars[j].active = true →
      cars[j].pos ≠ c := by
  intro j hj hne hact heq
  unfold occExcept at h
  rw [List.any_eq_false] at h
  have hjm : j < cars.enum.length := by rw [List.enum_length]; exact hj
  have hmem : (j, cars[j]) ∈ cars.enum := by
    have he := List.getElem_enum cars j hjm
    exact he ▸ List.getElem_mem hjm
  have h2 := h _ hmem
  simp only [Bool.and_eq_true, decide_eq_true_eq] at h2
  exact h2 ⟨⟨hne, hact⟩, heq⟩

theorem posOk_get {cars : List CarState} (h : PosOk cars) :
    ∀ a b, ∀ ha : a < cars.length, ∀ hb : b < cars.length, a ≠ b →
      cars[a].active = true → cars[b].active = true →
      cars[a].pos ≠ cars[b].pos := by
  unfold PosOk at h
  rw [List.pairwise_iff_getElem] at h
  intro a b ha hb hne hact1 hact2
  rcases Nat.lt_or_ge a b with hlt | hge
  · exact h a b ha hb hlt hact1 hact2
  · have hlt : b < a := Nat.lt_of_le_of_ne hge hne.symm
    exact fun e => (h b a hb ha hlt hact2 hact1) e.symm

theorem stepAgent_posOk (g : CityGrid) (lights : Coord → Bool)
    (cars : List CarState) (i : Nat) (o : Oracle) (h : PosOk cars) :
    PosOk (stepAgent g lights cars i o) := by
  unfold stepAgent
  cases hci : cars[i]? with
  | none => exact h
  | some car =>
    show PosOk (if car.active = true then
      cars.set i (carStep g lights (occExcept cars i) o car) else cars)
    by_cases hact : car.active = true
    · rw [if_pos hact]
      obtain ⟨hi, hcar⟩ := List.getElem?_eq_some.mp hci
      obtain ⟨hpos, _⟩ := carStep_safe g lights (occExcept cars i) o car
      unfold PosOk
      rw [List.pairwise_iff_getElem]
      intro a b ha2 hb2 hab
      rw [List.length_set] at ha2 hb2
      rw [List.getElem_set, List.getElem_set]
      by_cases hia : i = a
      · rw [if_pos hia]
        have hib : ¬ i = b := fun e => Nat.ne_of_lt hab (hia ▸ e)
        rw [if_neg hib]
        intro h1 h2
        rcases hpos with he | hfree
        · intro e
          have hca : cars[a] = car := hia ▸ hcar
          exact posOk_get h a b ha2 hb2 (Nat.ne_of_lt hab)
            (by rw [hca]; exact hact) h2 (by rw [hca, ← he, e])
        · exact fun e =>
            occExcept_false hfree b hb2 (fun eb => hib eb.symm) h2 e.symm
      · rw [if_neg hia]
        by_cases hib : i = b
        · rw [if_pos hib]
          intro h1 h2
          rcases hpos with he | hfree
          · intro e
            have hcb : cars[b] = car := hib ▸ hcar
            exact posOk_get h a b ha2 hb2 (Nat.ne_of_lt hab) h1
              (by rw [hcb]; exact hact) (by rw [hcb, ← he]; exact e)
          · exact occExcept_false hfree a ha2 (fun ea => hia ea.symm) h1
        · rw [if_neg hib]
          exact fun h1 h2 => posOk_get h a b ha2 hb2 (Nat.ne_of_lt hab) h1 h2
    · rw [if_neg hact]
      exact h

theorem runAgents_posOk (g : CityGrid) (steps : List AgentStepSpec)
    (cars : List CarState) (h : PosOk cars) :
    PosOk (runAgents g steps cars) := by
  induction steps generalizing cars with
  | nil => exact h
  | cons s rest ih =>
    exact ih _ (stepAgent_posOk g s.lights cars s.idx s.oracle h)

theorem cleanupCars_posOk (cars : List CarState) (h : PosOk cars) :
    PosOk (cleanupCars cars) :=
  List.Pairwise.sublist (List.filter_sublist cars) h

theorem spawnAttempts_some_free {g : CityGrid} {sp dst : List Coord}
    {cars : List CarState} :
    ∀ {ol : List (Nat × Nat)} {car : CarState},
    spawnAttempts g sp dst cars ol = some car →
    anyCarAt cars car.pos = false := by
  intro ol
  induction ol with
  | nil => exact fun h => Option.noConfusion h
  | cons p rest ih =>
    intro car h
    obtain ⟨si, di⟩ := p
    simp only [spawnAttempts] at h
    by_cases h1 : anyCarAt cars (sp.getD (si % sp.length) (0, 0)) = true
    · rw [if_pos h1] at h; exact ih h
    · rw [if_neg h1] at h
      by_cases h2 : 0 < (find_path_to_destination g (occOf cars)
          (sp.getD (si % sp.length) (0, 0))
          (dst.getD (di % dst.length) (0, 0))).length
      · rw [if_pos h2] at h
        cases h
        exact Bool.eq_false_iff.mpr h1
      · rw [if_neg h2] at h; exact ih h

theorem spawn_car_some_free {g : CityGrid} {sp dst : List Coord}
    {cars : List CarState} {ol : List (Nat × Nat)} {car : CarState}
    (h : spawn_car g sp dst cars ol = some car) :
    anyCarAt cars car.pos = false := by
  unfold spawn_car at h
  cases sp with
  | nil =>
    cases dst with
    | nil => exact Option.noConfusion h
    | cons d ds => exact Option.noConfusion h
  | cons s ss =>
    cases dst with
    | nil => exact Option.noConfusion h
    | cons d ds => exact spawnAttempts_some_free h

theorem spawnAttempts_some_path {g : CityGrid} {sp dst : List Coord}
    {cars : List CarState} :
    ∀ {ol : List (Nat × Nat)} {car : CarState},
    spawnAttempts g sp dst cars ol = some car →
    0 < (find_path_to_destination g (occOf cars) car.pos car.dest).length := by
  intro ol
  induction ol with
  | nil => exact fun h => Option.noConfusion h
  | cons p rest ih =>
    intro car h
    obtain ⟨si, di⟩ := p
    simp only [spawnAttempts] at h
    by_cases h1 : anyCarAt cars (sp.getD (si % sp.length) (0, 0)) = true
    · rw [if_pos h1] at h; exact ih h
    · rw [if_neg h1] at h
      by_cases h2 : 0 < (find_path_to_destination g (occOf cars)
          (sp.getD (si % sp.length) (0, 0))
          (dst.getD (di % dst.length) (0, 0))).length
      · rw [if_pos h2] at h
        cases h
        exact h2
      · rw [if_neg h2] at h; exact ih h

theorem spawn_car_some_path {g : CityGrid} {sp dst : List Coord}
    {cars : List CarState} {ol : List (Nat × Nat)} {car : CarState}
    (h : spawn_car g sp dst cars ol = some car) :
    0 < (find_path_to_destination g (occOf cars) car.pos car.dest).length := by
  unfold spawn_car at h
  cases sp with
  | nil =>
    cases dst with
    | nil => exact Option.noConfusion h
    | cons d ds => exact Option.noConfusion h
  | cons s ss =>
    cases dst with
    | nil => exact Option.noConfusion h
    | cons d ds => exact spawnAttempts_some_path h

theorem spawnPhase_posOk (g : CityGrid) (sp dst : List Coord)
    (ol : List (Nat × Nat)) (cars : List CarState) (h : PosOk cars) :
    PosOk (spawnPhase g sp dst ol cars) := by
  unfold spawnPhase
  cases hs : spawn_car g sp dst cars ol with
  | none => exact h
  | some car =>
    show PosOk (cars ++ [car])
    unfold PosOk
    rw [List.pairwise_append]
    refine ⟨h, List.pairwise_singleton _ _, ?_⟩
    intro a ha b hb haa hba
    simp only [List.mem_singleton] at hb
    subst hb
    intro heq
    have hfree := spawn_car_some_free hs
    rw [anyCarAt, List.any_eq_false] at hfree
    exact hfree a ha (by simp [haa, heq])

theorem movePath3_keeps (g : CityGrid) (occ : Coord → Bool) (o : Oracle)
    (self : CarState) :
    (movePath3 g occ o self).reachedDestination = self.reachedDestination := by
  obtain ⟨p1, p2, p3, path, p5, p6, p7, p8, p9, p10, p11, p12⟩ := self
  cases path with
  | nil => rfl
  | cons next rest =>
    simp only [movePath3]
    split
    · rfl
    · rfl

theorem continue_keeps (g : CityGrid) (lights occ : Coord → Bool)
    (self : CarState) :
    (continue_in_road_direction g lights occ self).reachedDestination =
      self.reachedDestination := by
  rcases continue_shape g lights occ self with ⟨w, hw⟩ | ⟨d, _, _, hw⟩ <;>
    rw [hw]

theorem movePath2_keeps (g : CityGrid) (lights occ : Coord → Bool)
    (o : Oracle) (self : CarState) :
    (movePath2 g lights occ o self).reachedDestination =
      self.reachedDestination := by
  unfold movePath2
  obtain ⟨w, hw⟩ := can_move_forward_snd g lights occ self
  split
  · rw [hw]
    exact movePath3_keeps g occ o _
  · split
    · rw [hw]
      exact continue_keeps g lights occ _
    · rw [hw]

theorem move_along_path_keeps (g : CityGrid) (lights occ : Coord → Bool)
    (o : Oracle) (self : CarState) :
    (move_along_path g lights occ o self).reachedDestination =
      self.reachedDestination := by
  unfold move_along_path
  split
  · exact movePath2_keeps g lights occ o _
  · exact movePath2_keeps g lights occ o self

theorem getD_mem_or {β : Type} (l : List β) (n : Nat) (d : β) :
    l.getD n d ∈ l ∨ l.getD n d = d := by
  induction l generalizing n with
  | nil => exact Or.inr rfl
  | cons a t ih =>
    cases n with
    | zero => exact Or.inl (List.mem_cons_self a t)
    | succ n =>
      rcases ih n with h | h
      · exact Or.inl (List.mem_cons_of_mem a h)
      · exact Or.inr h

theorem get_random_neighbor_some {g : CityGrid} {o : Oracle}
    {self : CarState} {n : Coord} {d : Direction}
    (h : get_random_neighbor g o self = some (n, d)) :
    n = stepCell self.pos d ∧ inBounds g n = true := by
  unfold get_random_neighbor at h
  cases hL : dirOrder.filterMap (fun dd =>
      if inBounds g (stepCell self.pos dd) then
        some (stepCell self.pos dd, dd)
      else none) with
  | nil => rw [hL] at h; exact Option.noConfusion h
  | cons p ps =>
    rw [hL] at h
    have h2 : (p :: ps).getD (o.choiceIdx % (p :: ps).length) p = (n, d) :=
      Option.some.inj h
    have hmemD : (p :: ps).getD (o.choiceIdx % (p :: ps).length) p ∈
        p :: ps := by
      rcases getD_mem_or (p :: ps) (o.choiceIdx % (p :: ps).length) p
        with hm | he
      · exact hm
      · rw [he]; exact List.mem_cons_self p ps
    rw [h2, ← hL] at hmemD
    rw [List.mem_filterMap] at hmemD
    obtain ⟨dd, -, hdd⟩ := hmemD
    by_cases hb : inBounds g (stepCell self.pos dd) = true
    · rw [if_pos hb] at hdd
      simp only [Option.some.injEq, Prod.mk.injEq] at hdd
      obtain ⟨h1, h3⟩ := hdd
      subst h3
      exact ⟨h1.symm, h1 ▸ hb⟩
    · rw [if_neg hb] at hdd
      exact Option.noConfusion hdd

theorem drunkTryMove_cases (g : CityGrid) (occ : Coord → Bool) (o : Oracle)
    (self : CarState) (next : Coord) (ndir : Direction) :
    ((drunkTryMove g occ o self next ndir).path = self.path ∧
     (drunkTryMove g occ o self next ndir).randomStepsRemaining =
       self.randomStepsRemaining) ∧
    ((drunkTryMove g occ o self next ndir).pos = self.pos ∨
      (isObstacleB g next = false ∧ occ next = false ∧
        (drunkTryMove g occ o self next ndir).pos = next)) := by
  unfold drunkTryMove
  by_cases h1 : isObstacleB g next = true
  · rw [if_pos h1]
    split
    · exact ⟨⟨rfl, rfl⟩, Or.inl rfl⟩
    · exact ⟨⟨rfl, rfl⟩, Or.inl rfl⟩
  · rw [if_neg h1]
    by_cases h2 : occ next = true
    · rw [if_pos h2]
      split
      · exact ⟨⟨rfl, rfl⟩, Or.inl rfl⟩
      · exact ⟨⟨rfl, rfl⟩, Or.inl rfl⟩
    · rw [if_neg h2]
      exact ⟨⟨rfl, rfl⟩,
        Or.inr ⟨by simpa using h1, by simpa using h2, rfl⟩⟩

end CarStepLemmas

/-! ### Determinism of the search

With pairwise-distinct insertion counters the heap order `(f, counter)` has
a unique minimum, so the loop's behavior does not depend on how the open
list happens to be arranged. -/

section Determinism

variable {α : Type}

theorem entryLe_antisymm {a b : Entry α} (h1 : entryLe a b)
    (h2 : entryLe b a) : a.f = b.f ∧ a.ctr = b.ctr := by
  unfold entryLe at h1 h2
  omega

theorem pairwise_ctr_inj {l : List (Entry α)}
    (h : l.Pairwise (fun a b => a.ctr ≠ b.ctr)) :
    ∀ {a b : Entry α}, a ∈ l → b ∈ l → a.ctr = b.ctr → a = b := by
  induction l with
  | nil =>
    intro a b ha
    exact absurd ha (by simp)
  | cons x t ih =>
    rw [List.pairwise_cons] at h
    intro a b ha hb he
    rcases List.mem_cons.mp ha with rfl | ha2
    · rcases List.mem_cons.mp hb with rfl | hb2
      · rfl
      · exact absurd he (h.1 b hb2)
    · rcases List.mem_cons.mp hb with rfl | hb2
      · exact absurd he.symm (h.1 a ha2)
      · exact ih h.2 ha2 hb2 he

theorem ctrNe_symm :
    Symmetric (fun a b : Entry α => a.ctr ≠ b.ctr) :=
  fun _ _ h => h.symm

theorem popMin_unique {l₁ l₂ : List (Entry α)} {m₁ m₂ : Entry α}
    {r₁ r₂ : List (Entry α)} (hperm : l₁.Perm l₂)
    (hdist : l₁.Pairwise (fun a b => a.ctr ≠ b.ctr))
    (h1 : popMin l₁ = some (m₁, r₁)) (h2 : popMin l₂ = some (m₂, r₂)) :
    m₁ = m₂ ∧ r₁.Perm r₂ := by
  have hm1 : m₁ ∈ l₁ := popMin_mem h1
  have hm2 : m₂ ∈ l₁ := hperm.symm.subset (popMin_mem h2)
  have hle1 : entryLe m₁ m₂ := popMin_min h1 m₂ hm2
  have hle2 : entryLe m₂ m₁ := popMin_min h2 m₁ (hperm.subset hm1)
  have heq : m₁ = m₂ :=
    pairwise_ctr_inj hdist hm1 hm2 (entryLe_antisymm hle1 hle2).2
  subst heq
  exact ⟨rfl,
    (((popMin_perm h1).symm.trans hperm).trans (popMin_perm h2)).cons_inv⟩

theorem relaxOne_congr [DecidableEq α] (hf : α → Nat) (e : Entry α)
    {s₁ s₂ : AState α} (hg : s₁.g = s₂.g) (hc : s₁.closed = s₂.closed)
    (hctr : s₁.ctr = s₂.ctr) (hperm : s₁.openL.Perm s₂.openL) (n : α) :
    (relaxOne hf e s₁ n).g = (relaxOne hf e s₂ n).g ∧
    (relaxOne hf e s₁ n).closed = (relaxOne hf e s₂ n).closed ∧
    (relaxOne hf e s₁ n).ctr = (relaxOne hf e s₂ n).ctr ∧
    (relaxOne hf e s₁ n).openL.Perm (relaxOne hf e s₂ n).openL := by
  unfold relaxOne
  by_cases h1 : n ∈ s₁.closed
  · rw [if_pos h1, if_pos (hc ▸ h1)]
    exact ⟨hg, hc, hctr, hperm⟩
  · rw [if_neg h1, if_neg (show ¬ n ∈ s₂.closed by rw [← hc]; exact h1)]
    have himp : improveCheck s₁ e.cell n = improveCheck s₂ e.cell n := by
      unfold improveCheck tentative
      rw [hg]
    rw [himp]
    by_cases h2 : improveCheck s₂ e.cell n = true
    · rw [if_pos h2, if_pos h2]
      unfold pushState tentative
      refine ⟨by rw [hg], hc, by rw [hctr], ?_⟩
      rw [hg, hctr]
      exact List.Perm.append hperm (List.Perm.refl _)
    · rw [if_neg h2, if_neg h2]
      exact ⟨hg, hc, hctr, hperm⟩

theorem expand_congr [DecidableEq α] (hf : α → Nat) (e : Entry α) :
    ∀ (ns : List α) {s₁ s₂ : AState α}, s₁.g = s₂.g →
      s₁.closed = s₂.closed → s₁.ctr = s₂.ctr → s₁.openL.Perm s₂.openL →
      (ns.foldl (relaxOne hf e) s₁).g = (ns.foldl (relaxOne hf e) s₂).g ∧
      (ns.foldl (relaxOne hf e) s₁).closed =
        (ns.foldl (relaxOne hf e) s₂).closed ∧
      (ns.foldl (relaxOne hf e) s₁).ctr =
        (ns.foldl (relaxOne hf e) s₂).ctr ∧
      (ns.foldl (relaxOne hf e) s₁).openL.Perm
        (ns.foldl (relaxOne hf e) s₂).openL := by
  intro ns
  induction ns with
  | nil =>
    intro s₁ s₂ hg hc hctr hperm
    exact ⟨hg, hc, hctr, hperm⟩
  | cons n ns ih =>
    intro s₁ s₂ hg hc hctr hperm
    obtain ⟨a, b, c, d⟩ := relaxOne_congr hf e hg hc hctr hperm n
    exact ih a b c d

theorem relaxOne_ctrInv [DecidableEq α] (hf : α → Nat) (e : Entry α)
    {st : AState α} (h : CtrInv st) (n : α) :
    CtrInv (relaxOne hf e st n) := by
  unfold relaxOne
  by_cases h1 : n ∈ st.closed
  · rw [if_pos h1]; exact h
  · rw [if_neg h1]
    by_cases h2 : improveCheck st e.cell n = true
    · rw [if_pos h2]
      unfold pushState
      constructor
      · intro x hx
        rcases List.mem_append.mp hx with hx | hx
        · exact Nat.le_trans (h.1 x hx) (Nat.le_succ _)
        · rw [List.mem_singleton] at hx
          subst hx
          exact Nat.le_refl _
      · rw [List.pairwise_append]
        refine ⟨h.2, List.pairwise_singleton _ _, ?_⟩
        intro a ha b hb
        rw [List.mem_singleton] at hb
        subst hb
        have := h.1 a ha
        show a.ctr ≠ st.ctr + 1
        omega
    · rw [if_neg h2]; exact h

theorem expand_ctrInv [DecidableEq α] (hf : α → Nat) (e : Entry α) :
    ∀ (ns : List α) {st : AState α}, CtrInv st →
      CtrInv (ns.foldl (relaxOne hf e) st) := by
  intro ns
  induction ns with
  | nil => exact fun h => h
  | cons n ns ih =>
    intro st h
    exact ih (relaxOne_ctrInv hf e h n)

theorem popped_ctrInv [DecidableEq α] {st : AState α} {e : Entry α}
    {r : List (Entry α)} (hinv : CtrInv st)
    (hpop : popMin st.openL = some (e, r)) (cl : Finset α) :
    CtrInv { st with openL := r, closed := cl } := by
  constructor
  · intro x hx
    exact hinv.1 x ((popMin_perm hpop).symm.subset (List.mem_cons_of_mem e hx))
  · have hp : (e :: r).Pairwise (fun a b => a.ctr ≠ b.ctr) :=
      hinv.2.perm (popMin_perm hpop) (fun h => h.symm)
    exact (List.pairwise_cons.mp hp).2

theorem astarLoop_perm [DecidableEq α] (succ : α → List α) (hf : α → Nat)
    (goal : α) : ∀ (fuel : Nat) (st₁ st₂ : AState α),
    st₁.g = st₂.g → st₁.closed = st₂.closed → st₁.ctr = st₂.ctr →
    st₁.openL.Perm st₂.openL → CtrInv st₁ →
    astarLoop succ hf goal fuel st₁ = astarLoop succ hf goal fuel st₂ := by
  intro fuel
  induction fuel with
  | zero => intro st₁ st₂ _ _ _ _ _; rfl
  | succ fuel ih =>
    intro st₁ st₂ hg hc hctr hperm hinv
    cases hp1 : popMin st₁.openL with
    | none =>
      have hl1 := popMin_eq_none hp1
      have hl2 : st₂.openL = [] :=
        List.Perm.eq_nil (by rw [← hl1]; exact hperm.symm)
      rw [astarLoop_succ_none succ hf goal fuel st₁ hp1,
        astarLoop_succ_none succ hf goal fuel st₂ (by rw [hl2]; rfl)]
    | some pr₁ =>
      obtain ⟨e₁, r₁⟩ := pr₁
      cases hp2 : popMin st₂.openL with
      | none =>
        have hl2 := popMin_eq_none hp2
        have hl1 : st₁.openL = [] :=
          List.Perm.eq_nil (by rw [← hl2]; exact hperm)
        rw [hl1] at hp1
        exact Option.noConfusion hp1
      | some pr₂ =>
        obtain ⟨e₂, r₂⟩ := pr₂
        obtain ⟨heq, hrperm⟩ := popMin_unique hperm hinv.2 hp1 hp2
        subst heq
        rw [astarLoop_succ_pop succ hf goal fuel st₁ hp1,
          astarLoop_succ_pop succ hf goal fuel st₂ hp2]
        by_cases hcl : e₁.cell ∈ st₁.closed
        · rw [if_pos hcl,
            if_pos (show e₁.cell ∈ st₂.closed by rw [← hc]; exact hcl)]
          exact ih _ _ hg hc hctr hrperm (popped_ctrInv hinv hp1 st₁.closed)
        · rw [if_neg hcl,
            if_neg (show ¬ e₁.cell ∈ st₂.closed by rw [← hc]; exact hcl)]
          by_cases hgl : e₁.cell = goal
          · rw [if_pos hgl, if_pos hgl]
          · rw [if_neg hgl, if_neg hgl]
            have hc2 : insert e₁.cell st₁.closed = insert e₁.cell st₂.closed := by
              rw [hc]
            obtain ⟨a, b, c, d⟩ := @expand_congr α _ hf e₁ (succ e₁.cell)
              { st₁ with openL := r₁, closed := insert e₁.cell st₁.closed }
              { st₂ with openL := r₂, closed := insert e₁.cell st₂.closed }
              hg hc2 hctr hrperm
            exact ih _ _ a b c d
              (expand_ctrInv hf e₁ (succ e₁.cell)
                (popped_ctrInv hinv hp1 (insert e₁.cell st₁.closed)))

end Determinism

/-! ### Claim theorems for the pathfinder -/

/-- C1: for every origin cell and destination cell between which a route
exists in the legality graph induced by `get_valid_neighbors` (so in
particular with no obstacles between them and all edges of uniform cost 1),
`Car.find_path_to_destination` returns a valid route whose length equals the
optimal (minimum) distance of the cost-1 edge model searched with the
Manhattan heuristic. -/
theorem find_path_returns_optimal (g : CityGrid) (occ : Coord → Bool)
    (s t : Coord) (hreach : Reach (gridSucc g occ) s t) :
    WalkTo (gridSucc g occ) s (find_path_to_destination g occ s t) t ∧
    IsMinWalkLen (gridSucc g occ) s t
      (find_path_to_destination g occ s t).length := by
  rcases find_path_spec g occ s t with ⟨-, hnr⟩ | h
  · exact absurd hreach hnr
  · exact h

/-- Witness for C1 on the straight unobstructed corridor grid, where the
optimal distance is the Manhattan distance four. -/
theorem find_path_returns_optimal_witness :
    Reach (gridSucc corridorGrid noCar) (0, 0) (4, 0) ∧
    (WalkTo (gridSucc corridorGrid noCar) (0, 0)
      (find_path_to_destination corridorGrid noCar (0, 0) (4, 0)) (4, 0) ∧
      IsMinWalkLen (gridSucc corridorGrid noCar) (0, 0) (4, 0)
        (find_path_to_destination corridorGrid noCar (0, 0) (4, 0)).length) :=
  have hr : Reach (gridSucc corridorGrid noCar) (0, 0) (4, 0) :=
    ⟨[(1, 0), (2, 0), (3, 0), (4, 0)], by decide⟩
  ⟨hr, find_path_returns_optimal corridorGrid noCar (0, 0) (4, 0) hr⟩

/-- C4: `Car.find_path_to_destination` terminates for every input — the
search loop, run with the fuel `stdFuel` that is linear in the grid area,
always produces an answer (never exhausts the fuel), even on cyclic road
graphs or unreachable destinations; the closed set lets every cell be
expanded at most once, which is what the linear bound rests on. -/
theorem find_path_search_terminates :
    (∀ (g : CityGrid) (occ : Coord → Bool) (s t : Coord),
      (astar (gridSucc g occ) (fun c => heuristic c t) s t
        (stdFuel g)).isSome = true) ∧
    ∀ g : CityGrid, stdFuel g = 2 + 6 * (g.width * g.height + 1) := by
  constructor
  · intro g occ s t
    cases h : astar (gridSucc g occ) (fun c => heuristic c t) s t (stdFuel g) with
    | none => exact absurd h (find_path_total g occ s t)
    | some ps => rfl
  · intro g
    rfl

/-- Counterexample for C5: on `lightGrid` the cell (1,1) hosts a rightward
Traffic_Light and the in-bounds, car-free, obstacle-free Destination (1,2)
lies directly above it, yet `get_valid_neighbors` does not include (1,2):
the traffic-light branch only ever considers the light's flow direction. -/
theorem dest_any_direction_cex :
    isLightB lightGrid (1, 1) = true ∧
    get_road_at lightGrid (1, 1) = some Direction.right ∧
    stepCell (1, 1) Direction.up = (1, 2) ∧
    isDestB lightGrid (1, 2) = true ∧
    inBounds lightGrid (1, 2) = true ∧
    noCar (1, 2) = false ∧
    isObstacleB lightGrid (1, 2) = false ∧
    ¬ (1, 2) ∈ get_valid_neighbors lightGrid noCar (1, 1)
        (get_road_at lightGrid (1, 1)) := by
  decide

/-- C5 amended: a move into a Destination cell is legal from any adjacent
direction when the source cell hosts a Destination or a plain Road; from a
Traffic_Light cell only the light's flow direction is considered, so the
original claim fails there (see the counterexample). -/
theorem dest_accepts_adjacent_amended (g : CityGrid) (occ : Coord → Bool)
    (c : Coord) (d : Direction)
    (hsrc : isDestB g c = true ∨ ∃ rd, g.static c = StaticCell.road rd)
    (hb : inBounds g (stepCell c d) = true)
    (hocc : occ (stepCell c d) = false)
    (hD : isDestB g (stepCell c d) = true) :
    stepCell c d ∈ get_valid_neighbors g occ c (get_road_at g c) := by
  rcases hsrc with hc | ⟨rd, hc⟩
  · exact dest_from_dest hc _ hb hocc hD
  · exact dest_from_road hc hb hocc hD

/-- Witness for the amended C5: from the road cell (3,0) of the corridor the
Destination (4,0) is accepted. -/
theorem dest_accepts_adjacent_amended_witness :
    (isDestB corridorGrid (3, 0) = true ∨
      ∃ rd, corridorGrid.static (3, 0) = StaticCell.road rd) ∧
    stepCell (3, 0) Direction.right ∈
      get_valid_neighbors corridorGrid noCar (3, 0)
        (get_road_at corridorGrid (3, 0)) :=
  have h1 : isDestB corridorGrid (3, 0) = true ∨
      ∃ rd, corridorGrid.static (3, 0) = StaticCell.road rd :=
    Or.inr ⟨Direction.right, by decide⟩
  ⟨h1, dest_accepts_adjacent_amended corridorGrid noCar (3, 0) Direction.right
    h1 (by decide) (by decide) (by decide)⟩

/-- **C2.** The occupancy-exclusivity invariant is preserved by a full tick
of `CityModel.step`: starting from a state where no two present cars share a
cell, after the optional spawn, one step of every agent in an arbitrary
(shuffled) order — each against the immediately committed positions of the
others — and the end-of-tick cleanup, still no two present cars share a
cell. Every movement commit is preceded by an occupancy check of the target
cell, and a car that finds the target occupied does not move. -/
theorem tick_preserves_exclusive_occupancy (g : CityGrid)
    (sp dst : List Coord) (ol : List (Nat × Nat))
    (steps : List AgentStepSpec) (cars : List CarState) (h : PosOk cars) :
    PosOk (cleanupCars (runAgents g steps (spawnPhase g sp dst ol cars))) :=
  cleanupCars_posOk _
    (runAgents_posOk g steps _ (spawnPhase_posOk g sp dst ol cars h))

/-- Witness for C2: a spawned car on the corridor steps once; the invariant
holds before and after the tick. -/
theorem tick_preserves_exclusive_occupancy_witness :
    PosOk ([] : List CarState) ∧
    PosOk (cleanupCars (runAgents corridorGrid
      [⟨0, allGreen, oracle0⟩]
      (spawnPhase corridorGrid [(0, 0)] [(4, 0)] [(0, 0)] []))) :=
  ⟨by decide,
    tick_preserves_exclusive_occupancy corridorGrid [(0, 0)] [(4, 0)]
      [(0, 0)] [⟨0, allGreen, oracle0⟩] [] (by decide)⟩

/-- **C3.** When no legal route exists, `Car.find_path_to_destination`
returns the empty list (total functions cannot raise, and `find_path` is
total by construction over the fuelled loop), and the caller
`move_along_path` handles the empty path by either remaining stationary or
falling back to `continue_in_road_direction`, which advances at most one
cell along the road under the current position. -/
theorem find_path_no_route (g : CityGrid) (occ : Coord → Bool) (s t : Coord)
    (h : ¬ Reach (gridSucc g occ) s t) :
    find_path_to_destination g occ s t = [] ∧
    ∀ lights (o : Oracle) (self : CarState), self.pos = s → self.dest = t →
      self.path = [] →
      (move_along_path g lights occ o self).pos = s ∨
      (∃ d, get_road_at g s = some d ∧
        (move_along_path g lights occ o self).pos = stepCell s d) := by
  have hfp : find_path_to_destination g occ s t = [] := by
    rcases find_path_spec g occ s t with ⟨he, -⟩ | ⟨hw, -⟩
    · exact he
    · exact absurd ⟨_, hw⟩ h
  refine ⟨hfp, ?_⟩
  intro lights o self hpos hdest hpath
  have hfp2 : find_path_to_destination g occ self.pos self.dest = [] := by
    rw [hpos, hdest]; exact hfp
  unfold move_along_path
  rw [if_pos hpath, hfp2]
  have hm : movePath2 g lights occ o { self with path := ([] : List Coord) } =
      continue_in_road_direction g lights occ
        { self with path := ([] : List Coord) } := rfl
  rw [hm]
  rcases continue_shape g lights occ { self with path := ([] : List Coord) }
    with ⟨w, hw⟩ | ⟨d, hrd, hoccd, hw⟩
  · left
    rw [hw]
    exact hpos
  · right
    refine ⟨d, ?_, ?_⟩
    · rw [← hpos]
      exact hrd
    · rw [hw, ← hpos]

/-- Witness for C3: on the dead-end grid the destination (2,0) is
unreachable from (0,0); the pathfinder answers `[]`. -/
theorem find_path_no_route_witness :
    (¬ Reach (gridSucc deadEndGrid noCar) (0, 0) (2, 0)) ∧
    find_path_to_destination deadEndGrid noCar (0, 0) (2, 0) = [] :=
  have hnr : ¬ Reach (gridSucc deadEndGrid noCar) (0, 0) (2, 0) :=
    fun hr => absurd (reach_of_no_succ (by decide) hr) (by decide)
  ⟨hnr, (find_path_no_route deadEndGrid noCar (0, 0) (2, 0) hnr).1⟩

/-- **C10.** Arrival takes effect one tick late. On the tick in which a
non-arrived car moves (its position differs from its destination when its
step runs), `Car.step` neither sets `reached_destination` nor removes the
agent — even when the move lands on the destination. Only at the start of
its next step, with position equal to destination, does it mark
`reached_destination` and remove itself, without moving again. -/
theorem arrival_one_tick_late (g : CityGrid) (lights occ : Coord → Bool)
    (o : Oracle) (self : CarState) (h0 : self.crashRecoverySteps = 0) :
    (self.pos ≠ self.dest →
      (carStepNormal g lights occ o self).reachedDestination =
        self.reachedDestination ∧
      (carStepNormal g lights occ o self).active = self.active) ∧
    (self.pos = self.dest →
      (carStepNormal g lights occ o self).reachedDestination = true ∧
      (carStepNormal g lights occ o self).active = false ∧
      (carStepNormal g lights occ o self).pos = self.pos) := by
  constructor
  · intro hne
    unfold carStepNormal
    rw [if_pos h0, if_neg hne]
    exact ⟨move_along_path_keeps g lights occ o self,
      (move_along_path_safe g lights occ o self).2⟩
  · intro heq
    unfold carStepNormal
    rw [if_pos h0, if_pos heq]
    exact ⟨rfl, rfl, rfl⟩

/-- Witness for C10: a fresh car already standing on its destination marks
arrival and removes itself at its next step; a fresh car away from its
destination does not arrive on its moving tick. -/
theorem arrival_one_tick_late_witness :
    (mkNewCar corridorGrid (4, 0) (4, 0)).crashRecoverySteps = 0 ∧
    (mkNewCar corridorGrid (0, 0) (4, 0)).crashRecoverySteps = 0 ∧
    (carStepNormal corridorGrid allGreen noCar oracle0
      (mkNewCar corridorGrid (4, 0) (4, 0))).reachedDestination = true ∧
    (carStepNormal corridorGrid allGreen noCar oracle0
      (mkNewCar corridorGrid (4, 0) (4, 4))).active =
        (mkNewCar corridorGrid (4, 0) (4, 4)).active :=
  ⟨by decide, by decide,
    ((arrival_one_tick_late corridorGrid allGreen noCar oracle0
      (mkNewCar corridorGrid (4, 0) (4, 0)) (by decide)).2 (by decide)).1,
    ((arrival_one_tick_late corridorGrid allGreen noCar oracle0
      (mkNewCar corridorGrid (4, 0) (4, 4)) (by decide)).1 (by decide)).2⟩

/-- Counterexample to C6: a drunk driver in its random window rolls a
successful crash against the car occupying its chosen neighbor cell. Only
the mover (index 0) is marked crashed; the occupant (index 1) keeps
`crashed = False` — the code never touches the occupant's state. -/
theorem crash_marks_both_cex :
    ((stepAgent corridorGrid allGreen
      [{ pos := (0, 0), dest := (4, 0), dir := Direction.right, path := [],
         kind := CarKind.drunk, crashed := false, crashRecoverySteps := 0,
         randomStepsRemaining := 2, zigzagLeft := true,
         reachedDestination := false, waitingAtLight := false,
         active := true },
       { pos := (1, 0), dest := (4, 0), dir := Direction.right, path := [],
         kind := CarKind.normal, crashed := false, crashRecoverySteps := 0,
         randomStepsRemaining := 0, zigzagLeft := true,
         reachedDestination := false, waitingAtLight := false,
         active := true }] 0
      { oracle0 with crashRoll := true }).map
        (fun c => c.crashed)) = [true, false] := by decide

/-- C6 amended: when a drunk mover's crash roll succeeds against an occupied
target cell, exactly the mover is marked crashed with a 10-tick recovery
countdown and stays in place; a stepping agent never alters any other list
entry, so the occupant's state is untouched. -/
theorem crash_marks_only_mover (g : CityGrid) (lights occ : Coord → Bool)
    (o : Oracle) (self : CarState) (next : Coord) (ndir : Direction)
    (hobs : isObstacleB g next = false) (hocc : occ next = true)
    (hroll : o.crashRoll = true) :
    (drunkTryMove g occ o self next ndir).crashed = true ∧
    (drunkTryMove g occ o self next ndir).crashRecoverySteps = 10 ∧
    (drunkTryMove g occ o self next ndir).pos = self.pos ∧
    ∀ (cars : List CarState) (i j : Nat) (o2 : Oracle), j ≠ i →
      (stepAgent g lights cars i o2)[j]? = cars[j]? := by
  refine ⟨?_, ?_, ?_, ?_⟩
  · unfold drunkTryMove
    rw [if_neg (by simp [hobs]), if_pos hocc, if_pos hroll]
  · unfold drunkTryMove
    rw [if_neg (by simp [hobs]), if_pos hocc, if_pos hroll]
  · unfold drunkTryMove
    rw [if_neg (by simp [hobs]), if_pos hocc, if_pos hroll]
  · intro cars i j o2 hne
    unfold stepAgent
    cases cars[i]? with
    | none => rfl
    | some car =>
      show (if car.active = true then
          cars.set i (carStep g lights (occExcept cars i) o2 car)
        else cars)[j]? = cars[j]?
      by_cases ha : car.active = true
      · rw [if_pos ha]
        exact List.getElem?_set_ne (fun e => hne e.symm)
      · rw [if_neg ha]

/-- Witness for the amended C6: the counterexample scenario seen from the
mover's side — crash flag, recovery countdown and unchanged position. -/
theorem crash_marks_only_mover_witness :
    isObstacleB corridorGrid (1, 0) = false ∧
    (fun c => decide (c = ((1 : Int), (0 : Int)))) (1, 0) = true ∧
    ({ oracle0 with crashRoll := true } : Oracle).crashRoll = true ∧
    (drunkTryMove corridorGrid
      (fun c => decide (c = ((1 : Int), (0 : Int))))
      { oracle0 with crashRoll := true }
      (mkNewCar corridorGrid (0, 0) (4, 0)) (1, 0)
      Direction.right).crashed = true :=
  ⟨by decide, by decide, by decide,
    (crash_marks_only_mover corridorGrid allGreen
      (fun c => decide (c = ((1 : Int), (0 : Int))))
      { oracle0 with crashRoll := true }
      (mkNewCar corridorGrid (0, 0) (4, 0)) (1, 0) Direction.right
      (by decide) (by decide) (by decide)).1⟩

/-- Counterexample to C7: inside the forgotten-route window
(`random_steps_remaining = 2`) the drunk driver picks the only in-bounds
neighbor (1,0), finds it occupied by a car and the crash roll fails — it
does not move that tick (its position stays (0,0) and only the window
counter decrements), refuting "moving every tick". -/
theorem forgotten_route_moves_every_tick_cex :
    (drunkStep corridorGrid allGreen
      (fun c => decide (c = ((1 : Int), (0 : Int)))) oracle0
      { pos := (0, 0), dest := (4, 0), dir := Direction.right,
        path := [(1, 0), (2, 0)], kind := CarKind.drunk, crashed := false,
        crashRecoverySteps := 0, randomStepsRemaining := 2,
        zigzagLeft := true, reachedDestination := false,
        waitingAtLight := false, active := true }).pos = (0, 0) ∧
    (drunkStep corridorGrid allGreen
      (fun c => decide (c = ((1 : Int), (0 : Int)))) oracle0
      { pos := (0, 0), dest := (4, 0), dir := Direction.right,
        path := [(1, 0), (2, 0)], kind := CarKind.drunk, crashed := false,
        crashRecoverySteps := 0, randomStepsRemaining := 2,
        zigzagLeft := true, reachedDestination := false,
        waitingAtLight := false, active := true }).randomStepsRemaining
      = 1 := by decide

/-- C7 amended: the forgotten-route behavior of `drunkDriver.step`. On the
trigger tick (counter zero, forget roll succeeds) the path is discarded,
the window length is set to a value between 3 and 5, and the car does not
move. On each window tick the stored path is never consulted or changed,
the counter decrements, and the car either stays or moves to the uniformly
chosen in-bounds neighbor — the latter only when that cell is free of
obstacles and cars. -/
theorem forgotten_route_window_amended (g : CityGrid)
    (lights occ : Coord → Bool) (o : Oracle) (self : CarState)
    (hrec : self.crashRecoverySteps = 0) (hnd : self.pos ≠ self.dest) :
    (self.randomStepsRemaining = 0 → o.forgetRoll = true →
      (drunkStep g lights occ o self).path = [] ∧
      (drunkStep g lights occ o self).pos = self.pos ∧
      3 ≤ (drunkStep g lights occ o self).randomStepsRemaining ∧
      (drunkStep g lights occ o self).randomStepsRemaining ≤ 5) ∧
    (0 < self.randomStepsRemaining →
      (drunkStep g lights occ o self).path = self.path ∧
      (drunkStep g lights occ o self).randomStepsRemaining =
        self.randomStepsRemaining - 1 ∧
      ((drunkStep g lights occ o self).pos = self.pos ∨
        ∃ next ndir, get_random_neighbor g o self = some (next, ndir) ∧
          next = stepCell self.pos ndir ∧ inBounds g next = true ∧
          isObstacleB g next = false ∧ occ next = false ∧
          (drunkStep g lights occ o self).pos = next)) := by
  constructor
  · intro hz hforget
    unfold drunkStep
    rw [if_pos hrec, if_neg hnd, if_neg (by omega : ¬ 0 <
      self.randomStepsRemaining), if_pos hforget]
    refine ⟨rfl, rfl, ?_, ?_⟩
    · show 3 ≤ 3 + o.randStepsIdx % 3
      omega
    · show 3 + o.randStepsIdx % 3 ≤ 5
      have := Nat.mod_lt o.randStepsIdx (show 0 < 3 by omega)
      omega
  · intro hwin
    unfold drunkStep
    rw [if_pos hrec, if_neg hnd, if_pos hwin]
    unfold drunkRandomWindow
    cases hrn : get_random_neighbor g o self with
    | none => exact ⟨rfl, rfl, Or.inl rfl⟩
    | some pr =>
      obtain ⟨next, ndir⟩ := pr
      obtain ⟨⟨hpath, hrsr⟩, hpos⟩ := drunkTryMove_cases g occ o
        { self with
          randomStepsRemaining := self.randomStepsRemaining - 1 }
        next ndir
      refine ⟨hpath, hrsr, ?_⟩
      rcases hpos with hstay | ⟨hobs, hocc, hmove⟩
      · exact Or.inl hstay
      · obtain ⟨hcell, hbnd⟩ := get_random_neighbor_some hrn
        exact Or.inr ⟨next, ndir, rfl, hcell, hbnd, hobs, hocc, hmove⟩

/-- Witness for the amended C7: on the free corridor a window tick at (0,0)
moves to the unique in-bounds neighbor (1,0) without consulting its stored
path, and a trigger tick installs a window of length 3. -/
theorem forgotten_route_window_amended_witness :
    (3 ≤ (drunkStep corridorGrid allGreen noCar
      { oracle0 with forgetRoll := true }
      (mkNewCar corridorGrid (0, 0) (4, 0))).randomStepsRemaining ∧
     (drunkStep corridorGrid allGreen noCar
      { oracle0 with forgetRoll := true }
      (mkNewCar corridorGrid (0, 0) (4, 0))).path = []) :=
  have h := forgotten_route_window_amended corridorGrid allGreen noCar
    { oracle0 with forgetRoll := true }
    (mkNewCar corridorGrid (0, 0) (4, 0)) (by decide) (by decide)
  ⟨(h.1 (by decide) (by decide)).2.2.1, (h.1 (by decide) (by decide)).1⟩

/-- **C8.** `CityModel.spawn_car` commits a new car only when the route
probe — `find_path_to_destination` run against the occupancy of the
existing cars, exactly what the discarded temporary car sees — returns a
nonzero-length path from the chosen spawn cell to the chosen destination,
and only onto a spawn cell free of cars; the committed car is appended to
`self.cars`. When no attempt succeeds, the car list is unchanged. -/
theorem spawn_car_spec (g : CityGrid) (sp dst : List Coord)
    (cars : List CarState) (ol : List (Nat × Nat)) :
    (∀ car, spawn_car g sp dst cars ol = some car →
      0 < (find_path_to_destination g (occOf cars) car.pos car.dest).length ∧
      anyCarAt cars car.pos = false ∧
      spawnPhase g sp dst ol cars = cars ++ [car]) ∧
    (spawn_car g sp dst cars ol = none →
      spawnPhase g sp dst ol cars = cars) := by
  constructor
  · intro car h
    refine ⟨spawn_car_some_path h, spawn_car_some_free h, ?_⟩
    unfold spawnPhase
    rw [h]
  · intro h
    unfold spawnPhase
    rw [h]

/-- Witness for C8: on the corridor with one spawn point and one
destination, the first attempt succeeds and appends the fresh car. -/
theorem spawn_car_spec_witness :
    spawn_car corridorGrid [(0, 0)] [(4, 0)] [] [(0, 0)] =
      some (mkNewCar corridorGrid (0, 0) (4, 0)) ∧
    spawnPhase corridorGrid [(0, 0)] [(4, 0)] [(0, 0)] [] =
      [] ++ [mkNewCar corridorGrid (0, 0) (4, 0)] :=
  have h : spawn_car corridorGrid [(0, 0)] [(4, 0)] [] [(0, 0)] =
      some (mkNewCar corridorGrid (0, 0) (4, 0)) := by decide
  ⟨h, ((spawn_car_spec corridorGrid [(0, 0)] [(4, 0)] [] [(0, 0)]).1
    (mkNewCar corridorGrid (0, 0) (4, 0)) h).2.2⟩

/-- **C9.** The search is deterministic. Rerunning
`find_path_to_destination` on identical agent state and grid trivially
yields the same path (the embedding is a pure function of its inputs, whose
only randomness-free tie-break is the insertion counter); substantially,
the priority queue's `(f_score, counter)` order has a unique minimum
whenever all counters are distinct — which the initial state satisfies and
every push preserves — so the loop's answer is independent of how the open
list happens to be arranged: any two states equal up to a permutation of
the open list produce identical results. -/
theorem find_path_deterministic (g : CityGrid) (occ : Coord → Bool)
    (s t : Coord) (fuel : Nat) (st₁ st₂ : AState Coord)
    (hg : st₁.g = st₂.g) (hc : st₁.closed = st₂.closed)
    (hctr : st₁.ctr = st₂.ctr) (hperm : st₁.openL.Perm st₂.openL)
    (hinv : CtrInv st₁) :
    find_path_to_destination g occ s t =
      find_path_to_destination g occ s t ∧
    CtrInv (astarInit s : AState Coord) ∧
    astarLoop (gridSucc g occ) (fun c => heuristic c t) t fuel st₁ =
      astarLoop (gridSucc g occ) (fun c => heuristic c t) t fuel st₂ := by
  refine ⟨rfl, ⟨?_, ?_⟩, ?_⟩
  · intro e he
    rw [show (astarInit s : AState Coord).openL = [⟨0, 0, s, [s]⟩] from rfl,
      List.mem_singleton] at he
    subst he
    exact Nat.le_refl 0
  · exact List.pairwise_singleton _ _
  · exact astarLoop_perm (gridSucc g occ) (fun c => heuristic c t) t fuel
      st₁ st₂ hg hc hctr hperm hinv

/-- Witness for C9: two open lists holding the same two tied entries
(`f = 3`, counters 0 and 1) in opposite orders drive the loop to the same
answer. -/
theorem find_path_deterministic_witness :
    ((⟨[⟨3, 0, (0, 0), [(0, 0)]⟩, ⟨3, 1, (1, 0), [(0, 0), (1, 0)]⟩],
        fun c => if c = (0, 0) then some 0 else none, ∅, 1⟩ :
      AState Coord).openL.Perm
      (⟨[⟨3, 1, (1, 0), [(0, 0), (1, 0)]⟩, ⟨3, 0, (0, 0), [(0, 0)]⟩],
        fun c => if c = (0, 0) then some 0 else none, ∅, 1⟩ :
      AState Coord).openL) ∧
    astarLoop (gridSucc corridorGrid noCar) (fun c => heuristic c (4, 0))
      (4, 0) 40
      (⟨[⟨3, 0, (0, 0), [(0, 0)]⟩, ⟨3, 1, (1, 0), [(0, 0), (1, 0)]⟩],
        fun c => if c = (0, 0) then some 0 else none, ∅, 1⟩ :
      AState Coord) =
    astarLoop (gridSucc corridorGrid noCar) (fun c => heuristic c (4, 0))
      (4, 0) 40
      (⟨[⟨3, 1, (1, 0), [(0, 0), (1, 0)]⟩, ⟨3, 0, (0, 0), [(0, 0)]⟩],
        fun c => if c = (0, 0) then some 0 else none, ∅, 1⟩ :
      AState Coord) :=
  have hperm :
      ([⟨3, 0, (0, 0), [(0, 0)]⟩, ⟨3, 1, (1, 0), [(0, 0), (1, 0)]⟩] :
        List (Entry Coord)).Perm
      [⟨3, 1, (1, 0), [(0, 0), (1, 0)]⟩, ⟨3, 0, (0, 0), [(0, 0)]⟩] :=
    List.Perm.swap _ _ _
  have hinv : CtrInv
      (⟨[⟨3, 0, (0, 0), [(0, 0)]⟩, ⟨3, 1, (1, 0), [(0, 0), (1, 0)]⟩],
        fun c => if c = (0, 0) then some 0 else none, ∅, 1⟩ :
      AState Coord) := by
    constructor
    · intro e he
      rcases List.mem_cons.mp he with h | h
      · subst h; decide
      · rw [List.mem_singleton] at h
        subst h; decide
    · refine List.pairwise_cons.mpr ⟨?_, List.pairwise_singleton _ _⟩
      intro b hb
      rw [List.mem_singleton] at hb
      subst hb
      decide
  ⟨hperm,
    (find_path_deterministic corridorGrid noCar (0, 0) (4, 0) 40
      (⟨[⟨3, 0, (0, 0), [(0, 0)]⟩, ⟨3, 1, (1, 0), [(0, 0), (1, 0)]⟩],
        fun c => if c = (0, 0) then some 0 else none, ∅, 1⟩ :
      AState Coord)
      (⟨[⟨3, 1, (1, 0), [(0, 0), (1, 0)]⟩, ⟨3, 0, (0, 0), [(0, 0)]⟩],
        fun c => if c = (0, 0) then some 0 else none, ∅, 1⟩ :
      AState Coord)
      rfl rfl rfl hperm hinv).2.2⟩

end Traffic
